import Mathlib

/-!
# BinanceBook: a depth-limited two-sided price-level book

A shallow embedding of `src/BinanceBook-vector-optimised.cpp` and the properties of it that
the specification states.

Modelling decisions.

* `Price` and `Quantity` are `double` in the source.  The book only ever compares prices with
  `<` and `>` (falling through to the "equal" branch otherwise) and never computes with them; the
  source header says to assume that floating-point comparison is unproblematic.  Prices are
  therefore taken from an arbitrary linear order `P` and quantities from an arbitrary type `Q`.
  The concrete evaluations instantiate both with `Int`.
* A `std::vector` is a `List`, front of the vector at the head.
* The `int` indices `lo`, `hi`, `mid` of the binary search are `Int`; a vector has far fewer than
  `2^31` elements, so the 32-bit range is not modelled.
* Reading `v[i]` outside `0 ≤ i < v.size()` and erasing an invalid range are undefined in C++;
  the model returns `none` there.  The `while` loop is run with a fuel argument and returns
  `none` when the fuel runs out.  `update_bbo_total` shows that neither ever happens.
-/

/-- The `struct PriceQuantity` of the source (lines 107-113). -/
structure PriceQuantity (P Q : Type) where
  price : P
  quantity : Q
deriving DecidableEq

/-- The `struct BookTicker` of the source (lines 115-121). -/
structure BookTicker (P Q : Type) where
  bestBidPrice : P
  bestBidQty : Q
  bestAskPrice : P
  bestAskQty : Q
deriving DecidableEq

/-- The data members of `class BinanceBook` (lines 236-237): `bidsInternal` is kept ascending
with the best bid at the end, `asksInternal` descending with the best ask at the end. -/
structure BinanceBook (P Q : Type) where
  bidsInternal : List (PriceQuantity P Q)
  asksInternal : List (PriceQuantity P Q)
deriving DecidableEq

namespace BinanceBook

variable {P Q : Type}

/-- The constructor `BinanceBook()` (lines 137-140): both vectors start empty (`reserve` only
affects capacity). -/
def init : BinanceBook P Q := ⟨[], []⟩

/-- The method `clear` (lines 142-145). -/
def clear (_b : BinanceBook P Q) : BinanceBook P Q := ⟨[], []⟩

/-- The method `is_empty` (lines 147-149). -/
def is_empty (b : BinanceBook P Q) : Bool :=
  b.bidsInternal.isEmpty && b.asksInternal.isEmpty

/-- The `std::vector` overloads of `replace` (lines 152-167): assign, then reverse in place. -/
def replace (_b : BinanceBook P Q) (bids asks : List (PriceQuantity P Q)) : BinanceBook P Q :=
  let bidsInternal := bids
  let asksInternal := asks
  ⟨bidsInternal.reverse, asksInternal.reverse⟩

/-- The container overload of `replace` (lines 171-183): `clear()`, `emplace_back` every element
of `bids` and of `asks` in iteration order, then reverse both vectors in place. -/
def replaceContainer (b : BinanceBook P Q) (bids asks : List (PriceQuantity P Q)) :
    BinanceBook P Q :=
  let b0 := clear b
  let bidsInternal := bids.foldl (fun acc e => acc ++ [⟨e.price, e.quantity⟩]) b0.bidsInternal
  let asksInternal := asks.foldl (fun acc e => acc ++ [⟨e.price, e.quantity⟩]) b0.asksInternal
  ⟨bidsInternal.reverse, asksInternal.reverse⟩

/-- The method `extract` (lines 200-202): a vector of two vectors, each side read from its
reverse iterators, so best level first. -/
def extract (b : BinanceBook P Q) : List (List (PriceQuantity P Q)) :=
  [b.bidsInternal.reverse, b.asksInternal.reverse]

/-- The read `v[i]` with an `int` index; `none` when the index is out of range. -/
def readAt {α : Type} (v : List α) (i : Int) : Option α :=
  if 0 ≤ i then v[i.toNat]? else none

/-- The range erase `v.erase(v.begin() + lo, v.end())`; `none` when `lo` is not a valid
position of `v`. -/
def eraseFrom {α : Type} (v : List α) (lo : Int) : Option (List α) :=
  if 0 ≤ lo ∧ lo ≤ (v.length : Int) then some (v.take lo.toNat) else none

section

variable [LinearOrder P]

/-- The `while (lo < hi)` loop of `insertBid` (lines 244-254), returning the final `lo`.  One unit
of fuel is spent per iteration. -/
def insertBidLoop (bidsInternal : List (PriceQuantity P Q)) (price : P) :
    Nat → Int → Int → Option Int
  | 0, lo, hi => if lo < hi then none else some lo
  | fuel + 1, lo, hi =>
    if lo < hi then
      let mid := lo + (hi - lo).tdiv 2
      match readAt bidsInternal mid with
      | none => none
      | some e =>
        if e.price > price then insertBidLoop bidsInternal price fuel lo mid
        else if e.price < price then insertBidLoop bidsInternal price fuel (mid + 1) hi
        else some mid
    else some lo

/-- The `while (lo < hi)` loop of `insertAsk` (lines 265-275), returning the final `lo`. -/
def insertAskLoop (asksInternal : List (PriceQuantity P Q)) (price : P) :
    Nat → Int → Int → Option Int
  | 0, lo, hi => if lo < hi then none else some lo
  | fuel + 1, lo, hi =>
    if lo < hi then
      let mid := lo + (hi - lo).tdiv 2
      match readAt asksInternal mid with
      | none => none
      | some e =>
        if e.price > price then insertAskLoop asksInternal price fuel (mid + 1) hi
        else if e.price < price then insertAskLoop asksInternal price fuel lo mid
        else some mid
    else some lo

/-- The method `insertBid` (lines 238-258) as a function of the bid vector: binary search from
`lo = 0`, `hi = size - 1`, erase `[lo, end)`, then `emplace_back`.  The loop gets `size` units of
fuel. -/
def insertBid (bidsInternal : List (PriceQuantity P Q)) (price : P) (quantity : Q) :
    Option (List (PriceQuantity P Q)) :=
  match insertBidLoop bidsInternal price bidsInternal.length 0 ((bidsInternal.length : Int) - 1) with
  | none => none
  | some lo =>
    match eraseFrom bidsInternal lo with
    | none => none
    | some erased => some (erased ++ [⟨price, quantity⟩])

/-- The method `insertAsk` (lines 259-279) as a function of the ask vector. -/
def insertAsk (asksInternal : List (PriceQuantity P Q)) (price : P) (quantity : Q) :
    Option (List (PriceQuantity P Q)) :=
  match insertAskLoop asksInternal price asksInternal.length 0 ((asksInternal.length : Int) - 1) with
  | none => none
  | some lo =>
    match eraseFrom asksInternal lo with
    | none => none
    | some erased => some (erased ++ [⟨price, quantity⟩])

/-- The bid half of `update_bbo` (lines 187-191): `empty() || back().price < bestBidPrice`
appends, otherwise `insertBid`. -/
def updateBids (bidsInternal : List (PriceQuantity P Q)) (price : P) (quantity : Q) :
    Option (List (PriceQuantity P Q)) :=
  match bidsInternal.getLast? with
  | none => some (bidsInternal ++ [⟨price, quantity⟩])
  | some back =>
    if back.price < price then some (bidsInternal ++ [⟨price, quantity⟩])
    else insertBid bidsInternal price quantity

/-- The ask half of `update_bbo` (lines 193-197): `empty() || back().price > bestAskPrice`
appends, otherwise `insertAsk`. -/
def updateAsks (asksInternal : List (PriceQuantity P Q)) (price : P) (quantity : Q) :
    Option (List (PriceQuantity P Q)) :=
  match asksInternal.getLast? with
  | none => some (asksInternal ++ [⟨price, quantity⟩])
  | some back =>
    if back.price > price then some (asksInternal ++ [⟨price, quantity⟩])
    else insertAsk asksInternal price quantity

/-- The method `update_bbo` (lines 185-198): the bid side first, then the ask side. -/
def update_bbo (b : BinanceBook P Q) (ticker : BookTicker P Q) : Option (BinanceBook P Q) :=
  match updateBids b.bidsInternal ticker.bestBidPrice ticker.bestBidQty with
  | none => none
  | some bids =>
    match updateAsks b.asksInternal ticker.bestAskPrice ticker.bestAskQty with
    | none => none
    | some asks => some ⟨bids, asks⟩

/-! ## The two binary searches as one loop

`insertBidLoop` and `insertAskLoop` differ only in which comparison moves which end of the
range.  `searchLoop` abstracts the two tests; the facts about the searches are proved once. -/

/-- A binary-search loop with abstract tests: `goLeft e` sets `hi = mid`, `goRight e` sets
`lo = mid + 1`, and when neither holds the loop stops with `lo = mid`. -/
def searchLoop {α : Type} (goLeft goRight : α → Bool) (v : List α) :
    Nat → Int → Int → Option Int
  | 0, lo, hi => if lo < hi then none else some lo
  | fuel + 1, lo, hi =>
    if lo < hi then
      let mid := lo + (hi - lo).tdiv 2
      match readAt v mid with
      | none => none
      | some e =>
        if goLeft e then searchLoop goLeft goRight v fuel lo mid
        else if goRight e then searchLoop goLeft goRight v fuel (mid + 1) hi
        else some mid
    else some lo

/-! ## Vocabulary of the specification -/

/-- Strictly ascending by price, front to back: the stored order of the bid side and the
best-first order of the ask side. -/
abbrev StrictAsc (v : List (PriceQuantity P Q)) : Prop :=
  v.Pairwise (fun a b => a.price < b.price)

/-- Strictly descending by price, front to back: the stored order of the ask side and the
best-first order of the bid side. -/
abbrev StrictDesc (v : List (PriceQuantity P Q)) : Prop :=
  v.Pairwise (fun a b => a.price > b.price)

/-- The ordering invariant of the book on the internal vectors (line 236-237 and the header,
lines 76-77). -/
abbrev Ordered (b : BinanceBook P Q) : Prop :=
  StrictAsc b.bidsInternal ∧ StrictDesc b.asksInternal

/-- The best bid is priced below the best ask whenever both sides are non-empty, on the internal
vectors (best level last). -/
def NotCrossed (b : BinanceBook P Q) : Prop :=
  ∀ bb ba, b.bidsInternal.getLast? = some bb → b.asksInternal.getLast? = some ba →
    bb.price < ba.price

/-- One call of a mutating method of the public interface, with its arguments. -/
inductive Call (P Q : Type) where
  | replace (bids asks : List (PriceQuantity P Q))
  | replaceContainer (bids asks : List (PriceQuantity P Q))
  | update_bbo (ticker : BookTicker P Q)

/-- The effect of one call on the book. -/
def step (b : BinanceBook P Q) : Call P Q → Option (BinanceBook P Q)
  | .replace bids asks => some (replace b bids asks)
  | .replaceContainer bids asks => some (replaceContainer b bids asks)
  | .update_bbo ticker => update_bbo b ticker

/-- The effect of a sequence of calls, first call first. -/
def run (b : BinanceBook P Q) : List (Call P Q) → Option (BinanceBook P Q)
  | [] => some b
  | c :: cs =>
    match step b c with
    | none => none
    | some b1 => run b1 cs

/-- A call whose snapshot arrives in exchange order: bids strictly descending, asks strictly
ascending.  A ticker is unconstrained. -/
def Call.SortedInput : Call P Q → Prop
  | .replace bids asks => StrictDesc bids ∧ StrictAsc asks
  | .replaceContainer bids asks => StrictDesc bids ∧ StrictAsc asks
  | .update_bbo _ => True

instance (c : Call P Q) : Decidable c.SortedInput := by
  cases c <;> unfold Call.SortedInput <;> infer_instance

/-- The first bid is priced below the first ask when both sequences are non-empty. -/
def FirstBelow (bids asks : List (PriceQuantity P Q)) : Prop :=
  match bids.head?, asks.head? with
  | some fb, some fa => fb.price < fa.price
  | _, _ => True

instance (bids asks : List (PriceQuantity P Q)) : Decidable (FirstBelow bids asks) := by
  unfold FirstBelow
  split <;> infer_instance

/-- A snapshot in exchange order whose first bid is priced below its first ask when both sides
are non-empty. -/
abbrev WellFormedSnapshot (bids asks : List (PriceQuantity P Q)) : Prop :=
  StrictDesc bids ∧ StrictAsc asks ∧ FirstBelow bids asks

/-- A call with well-formed input: a well-formed snapshot, or a ticker whose bid price is below
its ask price. -/
def Call.WellFormed : Call P Q → Prop
  | .replace bids asks => WellFormedSnapshot bids asks
  | .replaceContainer bids asks => WellFormedSnapshot bids asks
  | .update_bbo t => t.bestBidPrice < t.bestAskPrice

instance (c : Call P Q) : Decidable c.WellFormed := by
  cases c <;> unfold Call.WellFormed <;> infer_instance

/-! ## The data of the assertions in `main` -/

/-- The bids of `main` (line 291), best first. -/
def mainBids : List (PriceQuantity Int Int) := [⟨100, 1⟩, ⟨99, 2⟩, ⟨98, 3⟩]

/-- The asks of `main` (line 292), best first. -/
def mainAsks : List (PriceQuantity Int Int) := [⟨101, 1⟩, ⟨102, 2⟩, ⟨103, 3⟩]

/-- The first ticker of `main` (line 310). -/
def ticker1 : BookTicker Int Int := ⟨99, 3, 102, 3⟩

/-- The second ticker of `main` (line 322). -/
def ticker2 : BookTicker Int Int := ⟨105, 5, 120, 5⟩

/-- The calls that `main` makes up to line 323, followed by a second snapshot and a ticker that
improves the bid and worsens the ask. -/
def mainCalls : List (Call Int Int) :=
  [.replaceContainer mainBids mainAsks, .update_bbo ticker1, .update_bbo ticker2,
   .replace [⟨99, 1⟩, ⟨97, 2⟩, ⟨95, 3⟩] [⟨101, 1⟩, ⟨103, 2⟩, ⟨105, 3⟩],
   .update_bbo ⟨100, 7, 102, 8⟩]

/-- The book of `main` after `ticker1` (lines 311-318): bids `[99 (qty 3), 98]` and asks
`[102 (qty 3), 103]` best first, stored best last. -/
def mainBookAfterTicker1 : BinanceBook Int Int :=
  ⟨[⟨98, 3⟩, ⟨99, 3⟩], [⟨103, 3⟩, ⟨102, 3⟩]⟩

/-- A ticker that improves both sides of `mainBookAfterTicker1`. -/
def improvingTicker : BookTicker Int Int := ⟨100, 4, 101, 6⟩

/-- The book of `main` after the snapshot of line 293. -/
def mainBook : BinanceBook Int Int := replaceContainer init mainBids mainAsks

/-! ## Reference definitions from the specification -/

/-- The linear scan that the specification compares the bid search with: the leftmost index
whose price is at least `p` (the length of the vector when there is none). -/
def linearScanBid (v : List (PriceQuantity P Q)) (p : P) : Nat :=
  v.findIdx (fun e => decide (e.price ≥ p))

/-- The linear scan that the specification compares the ask search with: the leftmost index
whose price is at most `p` (the length of the vector when there is none). -/
def linearScanAsk (v : List (PriceQuantity P Q)) (p : P) : Nat :=
  v.findIdx (fun e => decide (e.price ≤ p))

/-- The bid half of `update_bbo` calls `insertBid`: the guard of line 187 is false, that is the
bid vector is not empty and its last price is not below the ticker price. -/
def callsInsertBid (bidsInternal : List (PriceQuantity P Q)) (price : P) : Bool :=
  match bidsInternal.getLast? with
  | none => false
  | some back => !decide (back.price < price)

/-- The ask half of `update_bbo` calls `insertAsk`: the guard of line 193 is false. -/
def callsInsertAsk (asksInternal : List (PriceQuantity P Q)) (price : P) : Bool :=
  match asksInternal.getLast? with
  | none => false
  | some back => !decide (back.price > price)

/-- A run of `update_bbo` calls only, one per ticker. -/
def runTickers (b : BinanceBook P Q) (ts : List (BookTicker P Q)) : Option (BinanceBook P Q) :=
  run b (ts.map Call.update_bbo)

/-! ## The diagnostic table

`to_string` formats numbers with `std::to_string(double)`, which is outside the book; the two
renderings are parameters `showP` and `showQ`.  The level is an `int` and is rendered in
decimal.  A reverse iterator is what is left of its side, best level first. -/

/-- The first loop of `to_string` (lines 210-216): one row per level while both iterators are
inside their vectors.  The value is the state at loop exit: `result`, `level` and the two
iterators. -/
def toStringBoth (showP : P → String) (showQ : Q → String) :
    String → Int → List (PriceQuantity P Q) → List (PriceQuantity P Q) →
      String × Int × List (PriceQuantity P Q) × List (PriceQuantity P Q)
  | result, level, b :: localBidIt, a :: localAskIt =>
    let result1 := result ++
      ("[" ++ toString level ++ "] [" ++ showQ b.quantity ++ "] " ++ showP b.price ++ " | ")
    let result2 := result1 ++ (showP a.price ++ " [" ++ showQ a.quantity ++ "]" ++ "\n")
    toStringBoth showP showQ result2 (level + 1) localBidIt localAskIt
  | result, level, localBidIt, localAskIt => (result, level, localBidIt, localAskIt)

/-- The loop of lines 218-223: the bid side is exhausted, one row per remaining ask. -/
def toStringAsks (showP : P → String) (showQ : Q → String) :
    String → Int → List (PriceQuantity P Q) → String
  | result, _, [] => result
  | result, level, a :: localAskIt =>
    let result1 := result ++ ("[" ++ toString level ++ "] [----] ---- | ")
    let result2 := result1 ++ (showP a.price ++ " [" ++ showQ a.quantity ++ "]" ++ "\n")
    toStringAsks showP showQ result2 (level + 1) localAskIt

/-- The loop of lines 225-230: the ask side is exhausted, one row per remaining bid. -/
def toStringBids (showP : P → String) (showQ : Q → String) :
    String → Int → List (PriceQuantity P Q) → String
  | result, _, [] => result
  | result, level, b :: localBidIt =>
    let result1 := result ++
      ("[" ++ toString level ++ "] [" ++ showQ b.quantity ++ "] " ++ showP b.price ++ " | ")
    let result2 := result1 ++ ("---- [----]" ++ "\n")
    toStringBids showP showQ result2 (level + 1) localBidIt

/-- The `if`/`else` of lines 217-231 on the state the first loop leaves. -/
def toStringRest (showP : P → String) (showQ : Q → String) :
    String × Int × List (PriceQuantity P Q) × List (PriceQuantity P Q) → String
  | (result, level, localBidIt, localAskIt) =>
    if localBidIt.isEmpty then toStringAsks showP showQ result level localAskIt
    else toStringBids showP showQ result level localBidIt

/-- The method `to_string` (lines 204-233). -/
def to_string (showP : P → String) (showQ : Q → String) (b : BinanceBook P Q) : String :=
  toStringRest showP showQ
    (toStringBoth showP showQ "" 1 b.bidsInternal.reverse b.asksInternal.reverse)

/-- One row of the table in the words of the specification: the level, the bid quantity and
bid price left of the bar, the ask price and ask quantity right of it, `----` for both fields of
a side that has no level at this row, and a newline at the end. -/
def tableRow (showP : P → String) (showQ : Q → String) (level : Int)
    (bid ask : Option (PriceQuantity P Q)) : String :=
  "[" ++ toString level ++ "] ["
    ++ (match bid with | some b => showQ b.quantity | none => "----") ++ "] "
    ++ (match bid with | some b => showP b.price | none => "----") ++ " | "
    ++ (match ask with | some a => showP a.price | none => "----") ++ " ["
    ++ (match ask with | some a => showQ a.quantity | none => "----") ++ "]" ++ "\n"

/-- The rows of the table in the words of the specification, for levels `first`, `first + 1`
and so on: one row per index below the larger of the two depths. -/
def tableRowsFrom (showP : P → String) (showQ : Q → String) (first : Int)
    (bids asks : List (PriceQuantity P Q)) : List String :=
  (List.range (max bids.length asks.length)).map
    (fun (i : Nat) => tableRow showP showQ (first + (i : Int)) bids[i]? asks[i]?)

/-- The table of the specification: rows for the levels from 1 on. -/
def tableRows (showP : P → String) (showQ : Q → String)
    (bids asks : List (PriceQuantity P Q)) : List String :=
  tableRowsFrom showP showQ 1 bids asks

end

/-! ## Snapshots -/

/-- In `replaceContainer` the loop of `emplace_back` calls copies its input. -/
theorem foldl_emplace_back (l acc : List (PriceQuantity P Q)) :
    l.foldl (fun acc e => acc ++ [(⟨e.price, e.quantity⟩ : PriceQuantity P Q)]) acc = acc ++ l := by
  induction l generalizing acc with
  | nil => simp
  | cons a l ih => simp [ih]

theorem replaceContainer_eq_replace (b : BinanceBook P Q) (bids asks : List (PriceQuantity P Q)) :
    replaceContainer b bids asks = replace b bids asks := by
  simp [replaceContainer, replace, clear, foldl_emplace_back]

theorem nodup_prices_of_pairwise_lt {v : List (PriceQuantity P Q)} {R : P → P → Prop}
    (hR : ∀ x y, R x y → x ≠ y) (h : v.Pairwise (fun a b => R a.price b.price)) :
    (v.map (fun e => e.price)).Nodup := by
  unfold List.Nodup
  rw [List.pairwise_map]
  exact h.imp (fun hab => hR _ _ hab)

/-! ## Facts about the search loop -/

section

variable [LinearOrder P]

theorem insertBidLoop_eq_searchLoop (v : List (PriceQuantity P Q)) (p : P) (fuel : Nat)
    (lo hi : Int) :
    insertBidLoop v p fuel lo hi
      = searchLoop (fun e => decide (e.price > p)) (fun e => decide (e.price < p)) v fuel lo hi := by
  induction fuel generalizing lo hi with
  | zero => rfl
  | succ n ih =>
    by_cases hlt : lo < hi
    · cases hr : readAt v (lo + (hi - lo).tdiv 2) with
      | none => simp [insertBidLoop, searchLoop, hlt, hr]
      | some e => simp [insertBidLoop, searchLoop, hlt, hr, ih]
    · simp [insertBidLoop, searchLoop, hlt]

theorem insertAskLoop_eq_searchLoop (v : List (PriceQuantity P Q)) (p : P) (fuel : Nat)
    (lo hi : Int) :
    insertAskLoop v p fuel lo hi
      = searchLoop (fun e => decide (e.price < p)) (fun e => decide (e.price > p)) v fuel lo hi := by
  induction fuel generalizing lo hi with
  | zero => rfl
  | succ n ih =>
    by_cases hlt : lo < hi
    · cases hr : readAt v (lo + (hi - lo).tdiv 2) with
      | none => simp [insertAskLoop, searchLoop, hlt, hr]
      | some e =>
        by_cases h1 : p < e.price
        · have h2 : ¬ e.price < p := not_lt.mpr (le_of_lt h1)
          simp [insertAskLoop, searchLoop, hlt, hr, ih, h1, h2]
        · simp [insertAskLoop, searchLoop, hlt, hr, ih, h1]
    · simp [insertAskLoop, searchLoop, hlt]

theorem readAt_eq_some {α : Type} {v : List α} {i : Int} {e : α} (h : readAt v i = some e) :
    0 ≤ i ∧ i < (v.length : Int) ∧ v[i.toNat]? = some e := by
  unfold readAt at h
  split at h
  · rename_i h0
    refine ⟨h0, ?_, h⟩
    have := (List.getElem?_eq_some.mp h).1
    omega
  · cases h

theorem readAt_of_lt {α : Type} {v : List α} {i : Int} (h0 : 0 ≤ i) (h1 : i < (v.length : Int)) :
    ∃ e, readAt v i = some e := by
  have hlt : i.toNat < v.length := by omega
  exact ⟨v[i.toNat], by simp [readAt, h0, List.getElem?_eq_getElem hlt]⟩

theorem mid_bounds {lo hi : Int} (h : lo < hi) :
    lo ≤ lo + (hi - lo).tdiv 2 ∧ lo + (hi - lo).tdiv 2 < hi := by
  rw [Int.tdiv_eq_ediv (by omega) (by decide)]
  omega

/-- Safety and termination of the loop, whatever the vector holds: started inside the vector
with fuel for the width of the range, it returns an index between `lo` and `hi`. -/
theorem searchLoop_bounds {α : Type} (goLeft goRight : α → Bool) (v : List α) :
    ∀ (fuel : Nat) (lo hi : Int), 0 ≤ lo → lo ≤ hi → hi < (v.length : Int) →
      hi - lo ≤ (fuel : Int) →
      ∃ r, searchLoop goLeft goRight v fuel lo hi = some r ∧ lo ≤ r ∧ r ≤ hi := by
  intro fuel
  induction fuel with
  | zero =>
    intro lo hi _ hle _ hf
    have : ¬ lo < hi := by omega
    exact ⟨lo, by simp [searchLoop, this], le_refl _, hle⟩
  | succ n ih =>
    intro lo hi h0 hle hlen hf
    by_cases hlt : lo < hi
    · obtain ⟨hm1, hm2⟩ := mid_bounds hlt
      obtain ⟨e, he⟩ := readAt_of_lt (le_trans h0 hm1) (lt_trans hm2 hlen)
      simp only [searchLoop, hlt, if_true, he]
      by_cases hL : goLeft e = true
      · obtain ⟨r, hr, h1, h2⟩ := ih lo _ h0 hm1 (lt_trans hm2 hlen) (by push_cast at hf; omega)
        exact ⟨r, by simp [hL, hr], h1, by omega⟩
      · by_cases hR : goRight e = true
        · obtain ⟨r, hr, h1, h2⟩ := ih (lo + (hi - lo).tdiv 2 + 1) hi (by omega) (by omega) hlen
            (by push_cast at hf; omega)
          exact ⟨r, by simp [hL, hR, hr], by omega, h2⟩
        · exact ⟨_, by simp [hL, hR], hm1, le_of_lt hm2⟩
    · exact ⟨lo, by simp [searchLoop, hlt], le_refl _, hle⟩

/-- Correctness of the loop on a monotone vector.  `hmono` says that an element that does not
send the search left has only `goRight` elements before it; `hex` that the two tests exclude
each other.  With every element before `lo` a `goRight` one and the element at `hi` not, the
result `r` is the leftmost index whose element is not `goRight`. -/
theorem searchLoop_spec {α : Type} (goLeft goRight : α → Bool) (v : List α)
    (hex : ∀ e, goLeft e = true → goRight e = false)
    (hmono : ∀ (i j : Nat) (ei ej : α), v[i]? = some ei → v[j]? = some ej → i < j →
      goLeft ej = false → goRight ei = true) :
    ∀ (fuel : Nat) (lo hi r : Int), 0 ≤ lo → lo ≤ hi →
      (∀ (i : Nat) (e : α), v[i]? = some e → (i : Int) < lo → goRight e = true) →
      (∀ e, v[hi.toNat]? = some e → goRight e = false) →
      searchLoop goLeft goRight v fuel lo hi = some r →
      (∀ (i : Nat) (e : α), v[i]? = some e → (i : Int) < r → goRight e = true) ∧
        (∀ e, v[r.toNat]? = some e → goRight e = false) := by
  intro fuel
  induction fuel with
  | zero =>
    intro lo hi r _ hle hlo hhi hr
    by_cases hlt : lo < hi
    · simp [searchLoop, hlt] at hr
    · simp only [searchLoop, hlt, if_false, Option.some.injEq] at hr
      have : hi = r := by omega
      subst hr
      exact ⟨hlo, this ▸ hhi⟩
  | succ n ih =>
    intro lo hi r h0 hle hlo hhi hr
    by_cases hlt : lo < hi
    · obtain ⟨hm1, hm2⟩ := mid_bounds hlt
      cases hread : readAt v (lo + (hi - lo).tdiv 2) with
      | none => simp [searchLoop, hlt, hread] at hr
      | some e =>
        obtain ⟨hm0, _, hget⟩ := readAt_eq_some hread
        by_cases hL : goLeft e = true
        · simp only [searchLoop, hlt, if_true, hread, hL] at hr
          exact ih lo _ r h0 hm1 hlo (fun e' he' => by
            rw [hget] at he'; cases he'; exact hex _ hL) hr
        · have hL' : goLeft e = false := by simpa using hL
          by_cases hR : goRight e = true
          · simp only [searchLoop, hlt, if_true, hread, hL, hR, if_false] at hr
            refine ih _ hi r (by omega) (by omega) (fun i ei hi' hlt' => ?_) hhi hr
            by_cases hieq : (i : Int) = lo + (hi - lo).tdiv 2
            · have : i = (lo + (hi - lo).tdiv 2).toNat := by omega
              rw [this, hget] at hi'; cases hi'; exact hR
            · exact hmono i _ ei e hi' hget (by omega) hL'
          · have hR' : goRight e = false := by simpa using hR
            simp only [searchLoop, hlt, if_true, hread, hL', hR', Bool.false_eq_true, if_false,
              Option.some.injEq] at hr
            subst hr
            refine ⟨fun i ei hi' hlt' => hmono i _ ei e hi' hget (by omega) hL', fun e' he' => ?_⟩
            rw [hget] at he'; cases he'; exact hR'
    · simp only [searchLoop, hlt, if_false, Option.some.injEq] at hr
      have : hi = r := by omega
      subst hr
      exact ⟨hlo, this ▸ hhi⟩

/-- A prefix that holds exactly the elements satisfying `k` is the `filter` by `k`. -/
theorem take_eq_filter_of_split {α : Type} (k : α → Bool) (v : List α) (r : Nat)
    (h1 : ∀ (i : Nat) (e : α), v[i]? = some e → i < r → k e = true)
    (h2 : ∀ (i : Nat) (e : α), v[i]? = some e → r ≤ i → k e = false) :
    v.take r = v.filter k := by
  have ht : (v.take r).filter k = v.take r := by
    rw [List.filter_eq_self]
    intro a ha
    obtain ⟨i, hi⟩ := List.mem_iff_getElem?.mp ha
    rw [List.getElem?_take] at hi
    split at hi
    · exact h1 i a hi (by assumption)
    · cases hi
  have hd : (v.drop r).filter k = [] := by
    rw [List.filter_eq_nil_iff]
    intro a ha
    obtain ⟨i, hi⟩ := List.mem_iff_getElem?.mp ha
    rw [List.getElem?_drop] at hi
    simp [h2 (r + i) a hi (by omega)]
  conv_rhs => rw [← List.take_append_drop r v, List.filter_append, ht, hd, List.append_nil]

/-- The search started as `insertBid` and `insertAsk` start it, on a non-empty monotone vector
whose last element is not `goRight`: it returns a valid index, and the prefix before that index
is the `filter` of the vector by `goRight`. -/
theorem searchLoop_take_eq_filter {α : Type} (goLeft goRight : α → Bool) (v : List α)
    (hex : ∀ e, goLeft e = true → goRight e = false)
    (hmono : ∀ (i j : Nat) (ei ej : α), v[i]? = some ei → v[j]? = some ej → i < j →
      goLeft ej = false → goRight ei = true)
    (hne : v ≠ [])
    (hlast : ∀ e, v.getLast? = some e → goRight e = false) :
    ∃ r : Int, searchLoop goLeft goRight v v.length 0 ((v.length : Int) - 1) = some r ∧
      0 ≤ r ∧ r < (v.length : Int) ∧ v.take r.toNat = v.filter goRight := by
  have hpos : 0 < v.length := List.length_pos.mpr hne
  obtain ⟨r, hr, hr0, hr1⟩ := searchLoop_bounds goLeft goRight v v.length 0
    ((v.length : Int) - 1) (le_refl _) (by omega) (by omega) (by omega)
  have hidx : ((v.length : Int) - 1).toNat = v.length - 1 := by omega
  obtain ⟨hA, hB⟩ := searchLoop_spec goLeft goRight v hex hmono v.length 0
    ((v.length : Int) - 1) r (le_refl _) (by omega)
    (fun i e _ hi => by omega)
    (fun e he => hlast e (by rw [List.getLast?_eq_getElem?, ← hidx]; exact he)) hr
  refine ⟨r, hr, hr0, by omega, ?_⟩
  apply take_eq_filter_of_split
  · intro i e he hi
    exact hA i e he (by omega)
  · intro i e he hi
    have hrlt : r.toNat < v.length := by omega
    have hrget : v[r.toNat]? = some v[r.toNat] := List.getElem?_eq_getElem hrlt
    have hRr : goRight v[r.toNat] = false := hB _ hrget
    by_cases hieq : i = r.toNat
    · subst hieq
      rw [hrget] at he; cases he; exact hRr
    · by_contra hcon
      have hRi : goRight e = true := by simpa using hcon
      have hLi : goLeft e = false := by
        by_contra hL
        have := hex e (by simpa using hL)
        rw [hRi] at this; cases this
      have := hmono r.toNat i _ e hrget he (by omega) hLi
      rw [hRr] at this; cases this

/-! ## One side of `update_bbo` -/

theorem pairwise_getElem? {α : Type} {R : α → α → Prop} {v : List α} (h : v.Pairwise R)
    {i j : Nat} {ei ej : α} (hi : v[i]? = some ei) (hj : v[j]? = some ej) (hij : i < j) :
    R ei ej := by
  obtain ⟨hi', rfl⟩ := List.getElem?_eq_some.mp hi
  obtain ⟨hj', rfl⟩ := List.getElem?_eq_some.mp hj
  exact List.pairwise_iff_getElem.mp h i j hi' hj' hij

theorem eraseFrom_of_bounds {α : Type} (v : List α) {r : Int} (h0 : 0 ≤ r)
    (h1 : r ≤ (v.length : Int)) : eraseFrom v r = some (v.take r.toNat) := by
  simp [eraseFrom, h0, h1]

/-- On a non-empty bid vector of any content `insertBid` returns: it keeps a proper prefix of
the vector and appends the new level. -/
theorem insertBid_total (v : List (PriceQuantity P Q)) (p : P) (q : Q) (hne : v ≠ []) :
    ∃ r : Nat, r < v.length ∧ insertBid v p q = some (v.take r ++ [⟨p, q⟩]) := by
  have hpos : 0 < v.length := List.length_pos.mpr hne
  obtain ⟨r, hr, hr0, hr1⟩ := searchLoop_bounds (fun e : PriceQuantity P Q => decide (e.price > p))
    (fun e => decide (e.price < p)) v v.length 0 ((v.length : Int) - 1) (le_refl _) (by omega)
    (by omega) (by omega)
  refine ⟨r.toNat, by omega, ?_⟩
  simp only [insertBid, insertBidLoop_eq_searchLoop, hr,
    eraseFrom_of_bounds v hr0 (show r ≤ (v.length : Int) by omega)]

/-- On a non-empty ask vector of any content `insertAsk` returns: it keeps a proper prefix of
the vector and appends the new level. -/
theorem insertAsk_total (v : List (PriceQuantity P Q)) (p : P) (q : Q) (hne : v ≠ []) :
    ∃ r : Nat, r < v.length ∧ insertAsk v p q = some (v.take r ++ [⟨p, q⟩]) := by
  have hpos : 0 < v.length := List.length_pos.mpr hne
  obtain ⟨r, hr, hr0, hr1⟩ := searchLoop_bounds (fun e : PriceQuantity P Q => decide (e.price < p))
    (fun e => decide (e.price > p)) v v.length 0 ((v.length : Int) - 1) (le_refl _) (by omega)
    (by omega) (by omega)
  refine ⟨r.toNat, by omega, ?_⟩
  simp only [insertAsk, insertAskLoop_eq_searchLoop, hr,
    eraseFrom_of_bounds v hr0 (show r ≤ (v.length : Int) by omega)]

/-- On a strictly ascending bid vector whose last price is at least `p`, `insertBid` keeps
exactly the levels priced below `p`. -/
theorem insertBid_sorted (v : List (PriceQuantity P Q)) (p : P) (q : Q) (hs : StrictAsc v)
    (hne : v ≠ []) (hlast : ∀ e, v.getLast? = some e → ¬ e.price < p) :
    insertBid v p q = some (v.filter (fun e => decide (e.price < p)) ++ [⟨p, q⟩]) := by
  obtain ⟨r, hr, hr0, hr1, htake⟩ := searchLoop_take_eq_filter
    (fun e : PriceQuantity P Q => decide (e.price > p)) (fun e => decide (e.price < p)) v
    (fun e he => by
      have h : p < e.price := by simpa using he
      simpa using le_of_lt h)
    (fun i j ei ej hi hj hij hL => by
      have h1 : ei.price < ej.price := pairwise_getElem? hs hi hj hij
      have h2 : ej.price ≤ p := by simpa using hL
      simpa using lt_of_lt_of_le h1 h2)
    hne (fun e he => by simpa using hlast e he)
  simp only [insertBid, insertBidLoop_eq_searchLoop, hr,
    eraseFrom_of_bounds v hr0 (le_of_lt hr1), htake]

/-- On a strictly descending ask vector whose last price is at most `p`, `insertAsk` keeps
exactly the levels priced above `p`. -/
theorem insertAsk_sorted (v : List (PriceQuantity P Q)) (p : P) (q : Q) (hs : StrictDesc v)
    (hne : v ≠ []) (hlast : ∀ e, v.getLast? = some e → ¬ e.price > p) :
    insertAsk v p q = some (v.filter (fun e => decide (e.price > p)) ++ [⟨p, q⟩]) := by
  obtain ⟨r, hr, hr0, hr1, htake⟩ := searchLoop_take_eq_filter
    (fun e : PriceQuantity P Q => decide (e.price < p)) (fun e => decide (e.price > p)) v
    (fun e he => by
      have h : e.price < p := by simpa using he
      simpa using le_of_lt h)
    (fun i j ei ej hi hj hij hL => by
      have h1 : ei.price > ej.price := pairwise_getElem? hs hi hj hij
      have h2 : p ≤ ej.price := by simpa using hL
      simpa using lt_of_le_of_lt h2 h1)
    hne (fun e he => by simpa using hlast e he)
  simp only [insertAsk, insertAskLoop_eq_searchLoop, hr,
    eraseFrom_of_bounds v hr0 (le_of_lt hr1), htake]

/-- The append branch of the bid half: an empty side, or a ticker above the current best. -/
theorem updateBids_append (v : List (PriceQuantity P Q)) (p : P) (q : Q)
    (h : ∀ back, v.getLast? = some back → back.price < p) :
    updateBids v p q = some (v ++ [⟨p, q⟩]) := by
  unfold updateBids
  cases hl : v.getLast? with
  | none => rfl
  | some back => simp [h back hl]

/-- The append branch of the ask half: an empty side, or a ticker below the current best. -/
theorem updateAsks_append (v : List (PriceQuantity P Q)) (p : P) (q : Q)
    (h : ∀ back, v.getLast? = some back → back.price > p) :
    updateAsks v p q = some (v ++ [⟨p, q⟩]) := by
  unfold updateAsks
  cases hl : v.getLast? with
  | none => rfl
  | some back => simp [h back hl]

/-- The bid half of `update_bbo` returns on every vector: a prefix followed by the new level. -/
theorem updateBids_total (v : List (PriceQuantity P Q)) (p : P) (q : Q) :
    ∃ r : Nat, r ≤ v.length ∧ updateBids v p q = some (v.take r ++ [⟨p, q⟩]) := by
  unfold updateBids
  cases hl : v.getLast? with
  | none => exact ⟨v.length, le_refl _, by simp⟩
  | some back =>
    by_cases hlt : back.price < p
    · exact ⟨v.length, le_refl _, by simp [hlt]⟩
    · have hne : v ≠ [] := by rintro rfl; simp at hl
      obtain ⟨r, hr, hins⟩ := insertBid_total v p q hne
      exact ⟨r, le_of_lt hr, by simp [hlt, hins]⟩

/-- The ask half of `update_bbo` returns on every vector: a prefix followed by the new level. -/
theorem updateAsks_total (v : List (PriceQuantity P Q)) (p : P) (q : Q) :
    ∃ r : Nat, r ≤ v.length ∧ updateAsks v p q = some (v.take r ++ [⟨p, q⟩]) := by
  unfold updateAsks
  cases hl : v.getLast? with
  | none => exact ⟨v.length, le_refl _, by simp⟩
  | some back =>
    by_cases hlt : back.price > p
    · exact ⟨v.length, le_refl _, by simp [hlt]⟩
    · have hne : v ≠ [] := by rintro rfl; simp at hl
      obtain ⟨r, hr, hins⟩ := insertAsk_total v p q hne
      exact ⟨r, le_of_lt hr, by simp [hlt, hins]⟩

/-- On a strictly ascending bid vector the bid half keeps exactly the levels below the new
price, whichever branch runs. -/
theorem updateBids_sorted (v : List (PriceQuantity P Q)) (p : P) (q : Q) (hs : StrictAsc v) :
    updateBids v p q = some (v.filter (fun e => decide (e.price < p)) ++ [⟨p, q⟩]) := by
  cases hl : v.getLast? with
  | none =>
    rw [updateBids_append v p q (fun back hb => by rw [hl] at hb; cases hb)]
    rw [List.getLast?_eq_none_iff.mp hl]; rfl
  | some back =>
    by_cases hlt : back.price < p
    · rw [updateBids_append v p q (fun back' hb => by rw [hl] at hb; cases hb; exact hlt)]
      have hall : v.filter (fun e => decide (e.price < p)) = v := by
        rw [List.filter_eq_self]
        intro a ha
        obtain ⟨ys, rfl⟩ := List.getLast?_eq_some_iff.mp hl
        rcases List.mem_append.mp ha with h | h
        · have := (List.pairwise_append.mp hs).2.2 a h back (by simp)
          simpa using lt_trans this hlt
        · simp only [List.mem_singleton] at h
          subst h; simpa using hlt
      rw [hall]
    · have hne : v ≠ [] := by rintro rfl; simp at hl
      have := insertBid_sorted v p q hs hne (fun e he => by rw [hl] at he; cases he; exact hlt)
      simp only [updateBids, hl, hlt, if_false, this]

/-- On a strictly descending ask vector the ask half keeps exactly the levels above the new
price, whichever branch runs. -/
theorem updateAsks_sorted (v : List (PriceQuantity P Q)) (p : P) (q : Q) (hs : StrictDesc v) :
    updateAsks v p q = some (v.filter (fun e => decide (e.price > p)) ++ [⟨p, q⟩]) := by
  cases hl : v.getLast? with
  | none =>
    rw [updateAsks_append v p q (fun back hb => by rw [hl] at hb; cases hb)]
    rw [List.getLast?_eq_none_iff.mp hl]; rfl
  | some back =>
    by_cases hlt : back.price > p
    · rw [updateAsks_append v p q (fun back' hb => by rw [hl] at hb; cases hb; exact hlt)]
      have hall : v.filter (fun e => decide (e.price > p)) = v := by
        rw [List.filter_eq_self]
        intro a ha
        obtain ⟨ys, rfl⟩ := List.getLast?_eq_some_iff.mp hl
        rcases List.mem_append.mp ha with h | h
        · have := (List.pairwise_append.mp hs).2.2 a h back (by simp)
          simpa using lt_trans hlt this
        · simp only [List.mem_singleton] at h
          subst h; simpa using hlt
      rw [hall]
    · have hne : v ≠ [] := by rintro rfl; simp at hl
      have := insertAsk_sorted v p q hs hne (fun e he => by rw [hl] at he; cases he; exact hlt)
      simp only [updateAsks, hl, hlt, if_false, this]

/-- Safety and termination of `update_bbo` on every book state: no read or erase is out of
range and the loops end within their fuel.  Each side becomes a prefix of its vector followed
by the ticker level. -/
theorem update_bbo_total (b : BinanceBook P Q) (t : BookTicker P Q) :
    ∃ rb ra : Nat, rb ≤ b.bidsInternal.length ∧ ra ≤ b.asksInternal.length ∧
      update_bbo b t = some
        ⟨b.bidsInternal.take rb ++ [⟨t.bestBidPrice, t.bestBidQty⟩],
         b.asksInternal.take ra ++ [⟨t.bestAskPrice, t.bestAskQty⟩]⟩ := by
  obtain ⟨rb, hrb, hb⟩ := updateBids_total b.bidsInternal t.bestBidPrice t.bestBidQty
  obtain ⟨ra, hra, ha⟩ := updateAsks_total b.asksInternal t.bestAskPrice t.bestAskQty
  exact ⟨rb, ra, hrb, hra, by simp only [update_bbo, hb, ha]⟩

/-- The value of `update_bbo` on a book that satisfies the ordering invariant. -/
theorem update_bbo_sorted (b : BinanceBook P Q) (t : BookTicker P Q) (h : Ordered b) :
    update_bbo b t = some
      ⟨b.bidsInternal.filter (fun e => decide (e.price < t.bestBidPrice))
          ++ [⟨t.bestBidPrice, t.bestBidQty⟩],
       b.asksInternal.filter (fun e => decide (e.price > t.bestAskPrice))
          ++ [⟨t.bestAskPrice, t.bestAskQty⟩]⟩ := by
  simp only [update_bbo, updateBids_sorted _ _ _ h.1, updateAsks_sorted _ _ _ h.2]

/-! ## Invariants along a sequence of calls -/

theorem replace_ordered (b : BinanceBook P Q) (bids asks : List (PriceQuantity P Q))
    (hb : StrictDesc bids) (ha : StrictAsc asks) : Ordered (replace b bids asks) :=
  ⟨List.pairwise_reverse.mpr hb, List.pairwise_reverse.mpr ha⟩

theorem update_bbo_ordered (b : BinanceBook P Q) (t : BookTicker P Q) (h : Ordered b) :
    ∃ b1, update_bbo b t = some b1 ∧ Ordered b1 := by
  refine ⟨_, update_bbo_sorted b t h, ?_, ?_⟩
  · refine List.pairwise_append.mpr ⟨h.1.filter _, List.pairwise_singleton _ _, ?_⟩
    intro a ha c hc
    simp only [List.mem_singleton] at hc
    subst hc
    simpa using (List.mem_filter.mp ha).2
  · refine List.pairwise_append.mpr ⟨h.2.filter _, List.pairwise_singleton _ _, ?_⟩
    intro a ha c hc
    simp only [List.mem_singleton] at hc
    subst hc
    simpa using (List.mem_filter.mp ha).2

theorem step_ordered (b : BinanceBook P Q) (c : Call P Q) (h : Ordered b) (hc : c.SortedInput) :
    ∃ b1, step b c = some b1 ∧ Ordered b1 := by
  cases c with
  | replace bids asks => exact ⟨_, rfl, replace_ordered b bids asks hc.1 hc.2⟩
  | replaceContainer bids asks =>
    exact ⟨_, rfl, replaceContainer_eq_replace b bids asks ▸ replace_ordered b bids asks hc.1 hc.2⟩
  | update_bbo t => exact update_bbo_ordered b t h

theorem run_ordered (cs : List (Call P Q)) :
    ∀ b : BinanceBook P Q, Ordered b → (∀ c ∈ cs, c.SortedInput) →
      ∃ b1, run b cs = some b1 ∧ Ordered b1 := by
  induction cs with
  | nil => exact fun b h _ => ⟨b, rfl, h⟩
  | cons c cs ih =>
    intro b h hcs
    obtain ⟨b1, hb1, ho1⟩ := step_ordered b c h (hcs c (List.mem_cons_self _ _))
    obtain ⟨b2, hb2, ho2⟩ := ih b1 ho1 (fun c' hc' => hcs c' (List.mem_cons_of_mem _ hc'))
    exact ⟨b2, by simp only [run, hb1, hb2], ho2⟩

theorem step_notCrossed (b : BinanceBook P Q) (c : Call P Q) (hc : c.WellFormed) :
    ∃ b1, step b c = some b1 ∧ NotCrossed b1 := by
  have hrep : ∀ bids asks : List (PriceQuantity P Q), FirstBelow bids asks →
      NotCrossed (replace b bids asks) := by
    intro bids asks hfb bb ba hbb hba
    simp only [replace, List.getLast?_reverse] at hbb hba
    simpa [FirstBelow, hbb, hba] using hfb
  cases c with
  | replace bids asks => exact ⟨_, rfl, hrep bids asks hc.2.2⟩
  | replaceContainer bids asks =>
    exact ⟨_, rfl, replaceContainer_eq_replace b bids asks ▸ hrep bids asks hc.2.2⟩
  | update_bbo t =>
    obtain ⟨rb, ra, _, _, hu⟩ := update_bbo_total b t
    refine ⟨_, hu, ?_⟩
    intro bb ba hbb hba
    simp only [List.getLast?_concat, Option.some.injEq] at hbb hba
    subst hbb; subst hba
    exact hc

theorem run_notCrossed (cs : List (Call P Q)) :
    ∀ b : BinanceBook P Q, NotCrossed b → (∀ c ∈ cs, c.WellFormed) →
      ∃ b1, run b cs = some b1 ∧ NotCrossed b1 := by
  induction cs with
  | nil => exact fun b h _ => ⟨b, rfl, h⟩
  | cons c cs ih =>
    intro b _ hcs
    obtain ⟨b1, hb1, ho1⟩ := step_notCrossed b c (hcs c (List.mem_cons_self _ _))
    obtain ⟨b2, hb2, ho2⟩ := ih b1 ho1 (fun c' hc' => hcs c' (List.mem_cons_of_mem _ hc'))
    exact ⟨b2, by simp only [run, hb1, hb2], ho2⟩

/-- What `extract()` returns after `update_bbo` on an ordered book, in terms of what it
returned before: on each side the ticker level, then the prior levels strictly worse than the
ticker price, in their prior order. -/
theorem extract_update_bbo_sorted (b : BinanceBook P Q) (t : BookTicker P Q) (h : Ordered b) :
    ∃ b1, update_bbo b t = some b1 ∧
      ∃ pb pa, extract b = [pb, pa] ∧
        extract b1 =
          [⟨t.bestBidPrice, t.bestBidQty⟩ :: pb.filter (fun e => decide (e.price < t.bestBidPrice)),
           ⟨t.bestAskPrice, t.bestAskQty⟩ :: pa.filter (fun e => decide (e.price > t.bestAskPrice))] :=
  ⟨_, update_bbo_sorted b t h, _, _, rfl, by simp [extract]⟩

/-! ## The claims of the specification -/

/-- C1. Per-side ordering invariant on reachable states: from an empty book, after any finite
sequence of `replace` calls (either overload) whose bids are strictly descending and whose asks
are strictly ascending, and of `update_bbo` calls with arbitrary tickers, the sequence runs to
a book whose `extract()` gives bids strictly descending and asks strictly ascending by price;
the internal bid vector is strictly ascending and the internal ask vector strictly descending,
and no two levels of one side share a price. -/
theorem ordering_invariant_reachable (cs : List (Call P Q)) (h : ∀ c ∈ cs, c.SortedInput) :
    ∃ b, run init cs = some b ∧
      ∃ bids asks, extract b = [bids, asks] ∧ StrictDesc bids ∧ StrictAsc asks ∧
        StrictAsc b.bidsInternal ∧ StrictDesc b.asksInternal ∧
        (bids.map (fun e => e.price)).Nodup ∧ (asks.map (fun e => e.price)).Nodup := by
  obtain ⟨b, hrun, hb, ha⟩ := run_ordered cs init ⟨List.Pairwise.nil, List.Pairwise.nil⟩ h
  have hb' : StrictDesc b.bidsInternal.reverse := List.pairwise_reverse.mpr hb
  have ha' : StrictAsc b.asksInternal.reverse := List.pairwise_reverse.mpr ha
  exact ⟨b, hrun, _, _, rfl, hb', ha', hb, ha,
    nodup_prices_of_pairwise_lt (fun _ _ hxy => ne_of_gt hxy) hb',
    nodup_prices_of_pairwise_lt (fun _ _ hxy => ne_of_lt hxy) ha'⟩

theorem ordering_invariant_reachable_witness :
    (∀ c ∈ mainCalls, c.SortedInput) ∧
    ∃ b, run init mainCalls = some b ∧
      ∃ bids asks, extract b = [bids, asks] ∧ StrictDesc bids ∧ StrictAsc asks ∧
        StrictAsc b.bidsInternal ∧ StrictDesc b.asksInternal ∧
        (bids.map (fun e => e.price)).Nodup ∧ (asks.map (fun e => e.price)).Nodup :=
  ⟨by decide, ordering_invariant_reachable mainCalls (by decide)⟩

/-- C2. The book is never crossed: from an empty book, after any finite sequence of `replace`
calls with well-formed snapshots (bids strictly descending, asks strictly ascending, first bid
below first ask when both are non-empty) and `update_bbo` calls whose ticker has
`bestBidPrice < bestAskPrice`, the sequence runs to a book in which, whenever both sides are
non-empty, `extract()[0][0].price < extract()[1][0].price`. -/
theorem never_crossed_reachable (cs : List (Call P Q)) (h : ∀ c ∈ cs, c.WellFormed) :
    ∃ b, run init cs = some b ∧
      ∃ bids asks, extract b = [bids, asks] ∧
        ∀ bb ba, bids[0]? = some bb → asks[0]? = some ba → bb.price < ba.price := by
  obtain ⟨b, hrun, hnc⟩ := run_notCrossed cs init
    (fun bb ba hbb _ => by simp [init] at hbb) h
  refine ⟨b, hrun, _, _, rfl, fun bb ba hbb hba => hnc bb ba ?_ ?_⟩
  · rw [← List.head?_reverse, List.head?_eq_getElem?]; exact hbb
  · rw [← List.head?_reverse, List.head?_eq_getElem?]; exact hba

theorem never_crossed_reachable_witness :
    (∀ c ∈ mainCalls, c.WellFormed) ∧
    ∃ b, run init mainCalls = some b ∧
      ∃ bids asks, extract b = [bids, asks] ∧
        ∀ bb ba, bids[0]? = some bb → asks[0]? = some ba → bb.price < ba.price :=
  ⟨by decide, never_crossed_reachable mainCalls (by decide)⟩

end

/-- C3. Round trip of a snapshot: for every prior book and every pair of input sequences,
`extract()` right after `replace(bids, asks)` returns exactly two sequences, the first equal to
`bids` and the second to `asks`, for the container overload and for the vector overloads.
Nothing of the prior state is left. -/
theorem extract_replace_roundtrip (b : BinanceBook P Q) (bids asks : List (PriceQuantity P Q)) :
    extract (replaceContainer b bids asks) = [bids, asks] ∧
      extract (replace b bids asks) = [bids, asks] := by
  rw [replaceContainer_eq_replace]
  simp [extract, replace]

section

variable [LinearOrder P]

/-- C4. The ticker becomes the top of book: for every book state, ordered or not, and every
ticker `t`, `update_bbo(t)` returns, and afterwards both sides are non-empty with
`extract()[0][0] = (t.bestBidPrice, t.bestBidQty)` and
`extract()[1][0] = (t.bestAskPrice, t.bestAskQty)`. -/
theorem ticker_becomes_top (b : BinanceBook P Q) (t : BookTicker P Q) :
    ∃ b1, update_bbo b t = some b1 ∧
      ∃ bids asks, extract b1 = [bids, asks] ∧ bids ≠ [] ∧ asks ≠ [] ∧
        bids[0]? = some ⟨t.bestBidPrice, t.bestBidQty⟩ ∧
        asks[0]? = some ⟨t.bestAskPrice, t.bestAskQty⟩ := by
  obtain ⟨rb, ra, _, _, hu⟩ := update_bbo_total b t
  exact ⟨_, hu, _, _, rfl, by simp, by simp, by simp, by simp⟩

/-- C5. Idempotence of a ticker: for every book whose internal bids are strictly ascending and
internal asks strictly descending, and every ticker `t`, `update_bbo(t)` returns a book `b1`,
and `update_bbo(t)` applied to `b1` returns `b1` again: both sides are equal in prices,
quantities and order. -/
theorem update_bbo_idempotent (b : BinanceBook P Q) (t : BookTicker P Q) (h : Ordered b) :
    ∃ b1, update_bbo b t = some b1 ∧ update_bbo b1 t = some b1 := by
  obtain ⟨b1, hu, ho⟩ := update_bbo_ordered b t h
  refine ⟨b1, hu, ?_⟩
  rw [update_bbo_sorted b1 t ho]
  rw [update_bbo_sorted b t h] at hu
  cases hu
  simp [List.filter_append, List.filter_filter]

theorem update_bbo_idempotent_witness :
    Ordered mainBook ∧
    ∃ b1, update_bbo mainBook ticker1 = some b1 ∧ update_bbo b1 ticker1 = some b1 :=
  ⟨by decide, update_bbo_idempotent mainBook ticker1 (by decide)⟩

end

/-- C6, as the code has it.  For the book built by `replace` (either overload) from bids priced
`[99, 97, 95]` and asks priced `[101, 103, 105]` with any quantities, `update_bbo` with
`bestBidPrice = 100` and `bestAskPrice = 102` returns, and `extract()` then gives the bids
`[100, 99, 97, 95]` (all three prior bids kept, 95 included) and the asks `[102, 103, 105]`
(101 dropped), every kept level with its prior quantity. -/
theorem uncrossing_scenario (b : BinanceBook Int Q) (q1 q2 q3 a1 a2 a3 tb ta : Q) :
    (∃ b1, update_bbo
          (replace b [⟨99, q1⟩, ⟨97, q2⟩, ⟨95, q3⟩] [⟨101, a1⟩, ⟨103, a2⟩, ⟨105, a3⟩])
          ⟨100, tb, 102, ta⟩ = some b1 ∧
        extract b1 =
          [[⟨100, tb⟩, ⟨99, q1⟩, ⟨97, q2⟩, ⟨95, q3⟩], [⟨102, ta⟩, ⟨103, a2⟩, ⟨105, a3⟩]]) ∧
    (∃ b1, update_bbo
          (replaceContainer b [⟨99, q1⟩, ⟨97, q2⟩, ⟨95, q3⟩] [⟨101, a1⟩, ⟨103, a2⟩, ⟨105, a3⟩])
          ⟨100, tb, 102, ta⟩ = some b1 ∧
        extract b1 =
          [[⟨100, tb⟩, ⟨99, q1⟩, ⟨97, q2⟩, ⟨95, q3⟩], [⟨102, ta⟩, ⟨103, a2⟩, ⟨105, a3⟩]]) := by
  have key : update_bbo
      (replace b [⟨99, q1⟩, ⟨97, q2⟩, ⟨95, q3⟩] [⟨101, a1⟩, ⟨103, a2⟩, ⟨105, a3⟩])
      ⟨100, tb, 102, ta⟩
      = some ⟨[⟨95, q3⟩, ⟨97, q2⟩, ⟨99, q1⟩, ⟨100, tb⟩], [⟨105, a3⟩, ⟨103, a2⟩, ⟨102, ta⟩]⟩ := by
    simp [update_bbo, updateBids, updateAsks, insertAsk, insertAskLoop, readAt, eraseFrom,
      replace, Int.tdiv]
  rw [replaceContainer_eq_replace, key]
  exact ⟨⟨_, rfl, rfl⟩, ⟨_, rfl, rfl⟩⟩

/-- C6 as stated fails: with all quantities 1 the bid prices that `extract()` returns after the
ticker `(100, 102)` are `[100, 99, 97, 95]`, not `[100, 99, 97]`; the level at 95 is kept. -/
theorem uncrossing_scenario_counterexample :
    (update_bbo (replace init [⟨99, 1⟩, ⟨97, 1⟩, ⟨95, 1⟩] [⟨101, 1⟩, ⟨103, 1⟩, ⟨105, 1⟩])
        (⟨100, 1, 102, 1⟩ : BookTicker Int Int)).map
        (fun b1 => (extract b1).map (fun side => side.map (fun e => e.price)))
      = some [[100, 99, 97, 95], [102, 103, 105]] ∧
    (update_bbo (replace init [⟨99, 1⟩, ⟨97, 1⟩, ⟨95, 1⟩] [⟨101, 1⟩, ⟨103, 1⟩, ⟨105, 1⟩])
        (⟨100, 1, 102, 1⟩ : BookTicker Int Int)).map
        (fun b1 => (extract b1).map (fun side => side.map (fun e => e.price)))
      ≠ some [[100, 99, 97], [102, 103, 105]] := by
  decide

section

variable [LinearOrder P]

/-- C7. Reference definition of the uncrossing update: for every book satisfying the ordering
invariant and every ticker `t`, `update_bbo(t)` returns, and afterwards the bid side read
best-first is `(t.bestBidPrice, t.bestBidQty)` followed by exactly the prior bid levels priced
strictly below `t.bestBidPrice`, in their prior best-first order with their quantities; the ask
side is `(t.bestAskPrice, t.bestAskQty)` followed by exactly the prior ask levels priced
strictly above `t.bestAskPrice`.  No prior level at or better than the new best price is among
the levels that follow the new one. -/
theorem uncrossing_reference (b : BinanceBook P Q) (t : BookTicker P Q) (h : Ordered b) :
    ∃ b1, update_bbo b t = some b1 ∧
      ∃ pb pa bids asks, extract b = [pb, pa] ∧ extract b1 = [bids, asks] ∧
        bids = ⟨t.bestBidPrice, t.bestBidQty⟩
          :: pb.filter (fun e => decide (e.price < t.bestBidPrice)) ∧
        asks = ⟨t.bestAskPrice, t.bestAskQty⟩
          :: pa.filter (fun e => decide (e.price > t.bestAskPrice)) ∧
        (∀ e ∈ pb, t.bestBidPrice ≤ e.price → e ∉ bids.tail) ∧
        (∀ e ∈ pa, e.price ≤ t.bestAskPrice → e ∉ asks.tail) := by
  obtain ⟨b1, hu, pb, pa, hp, he⟩ := extract_update_bbo_sorted b t h
  refine ⟨b1, hu, pb, pa, _, _, hp, he, rfl, rfl, ?_, ?_⟩
  · intro e _ hle hmem
    have := (List.mem_filter.mp hmem).2
    exact absurd (by simpa using this) (not_lt.mpr hle)
  · intro e _ hle hmem
    have := (List.mem_filter.mp hmem).2
    exact absurd (by simpa using this) (not_lt.mpr hle)

theorem uncrossing_reference_witness :
    Ordered mainBook ∧
    ∃ b1, update_bbo mainBook ticker1 = some b1 ∧
      ∃ pb pa bids asks, extract mainBook = [pb, pa] ∧ extract b1 = [bids, asks] ∧
        bids = ⟨ticker1.bestBidPrice, ticker1.bestBidQty⟩
          :: pb.filter (fun e => decide (e.price < ticker1.bestBidPrice)) ∧
        asks = ⟨ticker1.bestAskPrice, ticker1.bestAskQty⟩
          :: pa.filter (fun e => decide (e.price > ticker1.bestAskPrice)) ∧
        (∀ e ∈ pb, ticker1.bestBidPrice ≤ e.price → e ∉ bids.tail) ∧
        (∀ e ∈ pa, e.price ≤ ticker1.bestAskPrice → e ∉ asks.tail) :=
  ⟨by decide, uncrossing_reference mainBook ticker1 (by decide)⟩

/-- C8. An update at an existing price replaces that entry: on a book satisfying the ordering
invariant whose bid side holds a level priced `p`, `update_bbo` with `bestBidPrice = p` and
`bestBidQty = q` returns, and afterwards the bid side holds exactly one level priced `p`, with
quantity `q`, as the best bid; every prior bid priced above `p` is gone, every prior bid priced
below `p` is kept unchanged and in order, and the side has not grown.  The same holds for asks
with "above" and "below" exchanged.  On the book of `main` (bids `[100, 99, 98]`, asks
`[101, 102, 103]`) the ticker `(99, 3, 102, 3)` gives bids `[99 (qty 3), 98]` and asks
`[102 (qty 3), 103]`, each of length 2. -/
theorem update_at_existing_price (b : BinanceBook P Q) (t : BookTicker P Q) (h : Ordered b) :
    ((∃ e ∈ b.bidsInternal, e.price = t.bestBidPrice) →
      ∃ b1, update_bbo b t = some b1 ∧
        ∃ pb pa bids asks, extract b = [pb, pa] ∧ extract b1 = [bids, asks] ∧
          bids.filter (fun e => decide (e.price = t.bestBidPrice))
            = [⟨t.bestBidPrice, t.bestBidQty⟩] ∧
          bids[0]? = some ⟨t.bestBidPrice, t.bestBidQty⟩ ∧
          (∀ e ∈ pb, t.bestBidPrice < e.price → e ∉ bids) ∧
          (∀ e ∈ pb, e.price < t.bestBidPrice → e ∈ bids) ∧
          bids.tail = pb.filter (fun e => decide (e.price < t.bestBidPrice)) ∧
          bids.length ≤ pb.length) ∧
    ((∃ e ∈ b.asksInternal, e.price = t.bestAskPrice) →
      ∃ b1, update_bbo b t = some b1 ∧
        ∃ pb pa bids asks, extract b = [pb, pa] ∧ extract b1 = [bids, asks] ∧
          asks.filter (fun e => decide (e.price = t.bestAskPrice))
            = [⟨t.bestAskPrice, t.bestAskQty⟩] ∧
          asks[0]? = some ⟨t.bestAskPrice, t.bestAskQty⟩ ∧
          (∀ e ∈ pa, e.price < t.bestAskPrice → e ∉ asks) ∧
          (∀ e ∈ pa, t.bestAskPrice < e.price → e ∈ asks) ∧
          asks.tail = pa.filter (fun e => decide (e.price > t.bestAskPrice)) ∧
          asks.length ≤ pa.length) ∧
    (∃ b1, update_bbo mainBook ticker1 = some b1 ∧
      extract mainBook = [[⟨100, 1⟩, ⟨99, 2⟩, ⟨98, 3⟩], [⟨101, 1⟩, ⟨102, 2⟩, ⟨103, 3⟩]] ∧
      extract b1 = [[⟨99, 3⟩, ⟨98, 3⟩], [⟨102, 3⟩, ⟨103, 3⟩]]) := by
  obtain ⟨b1, hu, pb, pa, hp, he⟩ := extract_update_bbo_sorted b t h
  have hpb : pb = b.bidsInternal.reverse := by
    simp only [extract, List.cons.injEq, and_true] at hp; exact hp.1.symm
  have hpa : pa = b.asksInternal.reverse := by
    simp only [extract, List.cons.injEq, and_true] at hp; exact hp.2.symm
  refine ⟨fun hex => ⟨b1, hu, pb, pa, _, _, hp, he, ?_, by simp, ?_, ?_, rfl, ?_⟩,
    fun hex => ⟨b1, hu, pb, pa, _, _, hp, he, ?_, by simp, ?_, ?_, rfl, ?_⟩, ?_⟩
  · rw [List.filter_cons_of_pos (by simp), List.filter_filter]
    congr 1
    rw [List.filter_eq_nil_iff]
    intro a _
    simp only [Bool.and_eq_true, decide_eq_true_eq, not_and]
    intro h1 h2
    exact absurd h1 (ne_of_lt h2)
  · intro e _ hlt hmem
    rcases List.mem_cons.mp hmem with heq | hmem
    · subst heq; exact lt_irrefl _ hlt
    · have := (List.mem_filter.mp hmem).2
      exact lt_asymm hlt (by simpa using this)
  · intro e he hlt
    exact List.mem_cons_of_mem _ (List.mem_filter.mpr ⟨he, by simpa using hlt⟩)
  · obtain ⟨e, hmem, hprice⟩ := hex
    have hlt : (pb.filter (fun e => decide (e.price < t.bestBidPrice))).length < pb.length :=
      List.length_filter_lt_length_iff_exists.mpr
        ⟨e, by rw [hpb]; exact List.mem_reverse.mpr hmem, by simp [hprice]⟩
    simp only [List.length_cons]
    omega
  · rw [List.filter_cons_of_pos (by simp), List.filter_filter]
    congr 1
    rw [List.filter_eq_nil_iff]
    intro a _
    simp only [Bool.and_eq_true, decide_eq_true_eq, not_and]
    intro h1 h2
    exact absurd h1 (ne_of_gt h2)
  · intro e _ hlt hmem
    rcases List.mem_cons.mp hmem with heq | hmem
    · subst heq; exact lt_irrefl _ hlt
    · have := (List.mem_filter.mp hmem).2
      exact lt_asymm hlt (by simpa using this)
  · intro e he hlt
    exact List.mem_cons_of_mem _ (List.mem_filter.mpr ⟨he, by simpa using hlt⟩)
  · obtain ⟨e, hmem, hprice⟩ := hex
    have hlt : (pa.filter (fun e => decide (e.price > t.bestAskPrice))).length < pa.length :=
      List.length_filter_lt_length_iff_exists.mpr
        ⟨e, by rw [hpa]; exact List.mem_reverse.mpr hmem, by simp [hprice]⟩
    simp only [List.length_cons]
    omega
  · exact ⟨⟨[⟨98, 3⟩, ⟨99, 3⟩], [⟨103, 3⟩, ⟨102, 3⟩]⟩, by decide, by decide, by decide⟩

theorem update_at_existing_price_witness :
    Ordered mainBook ∧
    (∃ e ∈ mainBook.bidsInternal, e.price = ticker1.bestBidPrice) ∧
    (∃ e ∈ mainBook.asksInternal, e.price = ticker1.bestAskPrice) ∧
    (∃ b1, update_bbo mainBook ticker1 = some b1 ∧
      ∃ pb pa bids asks, extract mainBook = [pb, pa] ∧ extract b1 = [bids, asks] ∧
        bids.filter (fun e => decide (e.price = ticker1.bestBidPrice))
          = [⟨ticker1.bestBidPrice, ticker1.bestBidQty⟩] ∧
        bids[0]? = some ⟨ticker1.bestBidPrice, ticker1.bestBidQty⟩ ∧
        (∀ e ∈ pb, ticker1.bestBidPrice < e.price → e ∉ bids) ∧
        (∀ e ∈ pb, e.price < ticker1.bestBidPrice → e ∈ bids) ∧
        bids.tail = pb.filter (fun e => decide (e.price < ticker1.bestBidPrice)) ∧
        bids.length ≤ pb.length) ∧
    (∃ b1, update_bbo mainBook ticker1 = some b1 ∧
      ∃ pb pa bids asks, extract mainBook = [pb, pa] ∧ extract b1 = [bids, asks] ∧
        asks.filter (fun e => decide (e.price = ticker1.bestAskPrice))
          = [⟨ticker1.bestAskPrice, ticker1.bestAskQty⟩] ∧
        asks[0]? = some ⟨ticker1.bestAskPrice, ticker1.bestAskQty⟩ ∧
        (∀ e ∈ pa, e.price < ticker1.bestAskPrice → e ∉ asks) ∧
        (∀ e ∈ pa, ticker1.bestAskPrice < e.price → e ∈ asks) ∧
        asks.tail = pa.filter (fun e => decide (e.price > ticker1.bestAskPrice)) ∧
        asks.length ≤ pa.length) :=
  ⟨by decide, by decide, by decide,
    (update_at_existing_price mainBook ticker1 (by decide)).1 (by decide),
    (update_at_existing_price mainBook ticker1 (by decide)).2.1 (by decide)⟩

/-- C9. Pure extension on strict improvement: for every book state, if the bid side is
non-empty and the ticker's `bestBidPrice` is strictly above the current best bid price, then
`update_bbo` returns and the bid side read best-first is `(bestBidPrice, bestBidQty)` followed
by all prior bid levels, unchanged and in the same order; likewise an ask price strictly below
the current best ask only puts the new level in front of the prior asks.  In `main`, the book
with bids `[99 (qty 3), 98]` and the ticker `(105, 5, 120, 5)` give a bid side that starts with
105 (qty 5) and 99 (qty 3). -/
theorem pure_extension_on_improvement (b : BinanceBook P Q) (t : BookTicker P Q) :
    (∀ pb pa best, extract b = [pb, pa] → pb[0]? = some best → best.price < t.bestBidPrice →
      ∃ b1, update_bbo b t = some b1 ∧
        ∃ bids asks, extract b1 = [bids, asks] ∧
          bids = ⟨t.bestBidPrice, t.bestBidQty⟩ :: pb) ∧
    (∀ pb pa best, extract b = [pb, pa] → pa[0]? = some best → t.bestAskPrice < best.price →
      ∃ b1, update_bbo b t = some b1 ∧
        ∃ bids asks, extract b1 = [bids, asks] ∧
          asks = ⟨t.bestAskPrice, t.bestAskQty⟩ :: pa) ∧
    (run init [.replaceContainer mainBids mainAsks, .update_bbo ticker1]
        = some mainBookAfterTicker1 ∧
      extract mainBookAfterTicker1 = [[⟨99, 3⟩, ⟨98, 3⟩], [⟨102, 3⟩, ⟨103, 3⟩]] ∧
      ∃ b1, update_bbo mainBookAfterTicker1 ticker2 = some b1 ∧
        ∃ bids asks, extract b1 = [bids, asks] ∧
          bids = [⟨105, 5⟩, ⟨99, 3⟩, ⟨98, 3⟩] ∧
          bids[0]? = some ⟨105, 5⟩ ∧ bids[1]? = some ⟨99, 3⟩) := by
  refine ⟨?_, ?_, ?_⟩
  · intro pb pa best hp hbest hlt
    simp only [extract, List.cons.injEq, and_true] at hp
    obtain ⟨hpb, _⟩ := hp
    have hlast : b.bidsInternal.getLast? = some best := by
      rw [← List.head?_reverse, hpb, List.head?_eq_getElem?]; exact hbest
    have hbids := updateBids_append b.bidsInternal t.bestBidPrice t.bestBidQty
      (fun back hb => by rw [hlast] at hb; cases hb; exact hlt)
    obtain ⟨ra, _, hasks⟩ := updateAsks_total b.asksInternal t.bestAskPrice t.bestAskQty
    have hu : update_bbo b t = some ⟨b.bidsInternal ++ [⟨t.bestBidPrice, t.bestBidQty⟩],
        b.asksInternal.take ra ++ [⟨t.bestAskPrice, t.bestAskQty⟩]⟩ := by
      simp only [update_bbo, hbids, hasks]
    refine ⟨_, hu, _, _, rfl, ?_⟩
    simp [hpb]
  · intro pb pa best hp hbest hlt
    simp only [extract, List.cons.injEq, and_true] at hp
    obtain ⟨_, hpa⟩ := hp
    have hlast : b.asksInternal.getLast? = some best := by
      rw [← List.head?_reverse, hpa, List.head?_eq_getElem?]; exact hbest
    have hasks := updateAsks_append b.asksInternal t.bestAskPrice t.bestAskQty
      (fun back hb => by rw [hlast] at hb; cases hb; exact hlt)
    obtain ⟨rb, _, hbids⟩ := updateBids_total b.bidsInternal t.bestBidPrice t.bestBidQty
    have hu : update_bbo b t = some ⟨b.bidsInternal.take rb ++ [⟨t.bestBidPrice, t.bestBidQty⟩],
        b.asksInternal ++ [⟨t.bestAskPrice, t.bestAskQty⟩]⟩ := by
      simp only [update_bbo, hbids, hasks]
    refine ⟨_, hu, _, _, rfl, ?_⟩
    simp [hpa]
  · exact ⟨by decide, by decide, ⟨[⟨98, 3⟩, ⟨99, 3⟩, ⟨105, 5⟩], [⟨120, 5⟩]⟩, by decide,
      _, _, rfl, rfl, rfl, rfl⟩

theorem pure_extension_on_improvement_witness :
    (extract mainBookAfterTicker1 = [[⟨99, 3⟩, ⟨98, 3⟩], [⟨102, 3⟩, ⟨103, 3⟩]] ∧
      ([⟨99, 3⟩, ⟨98, 3⟩] : List (PriceQuantity Int Int))[0]? = some ⟨99, 3⟩ ∧
      (99 : Int) < improvingTicker.bestBidPrice ∧
      ([⟨102, 3⟩, ⟨103, 3⟩] : List (PriceQuantity Int Int))[0]? = some ⟨102, 3⟩ ∧
      improvingTicker.bestAskPrice < (102 : Int)) ∧
    (∃ b1, update_bbo mainBookAfterTicker1 improvingTicker = some b1 ∧
      ∃ bids asks, extract b1 = [bids, asks] ∧
        bids = ⟨improvingTicker.bestBidPrice, improvingTicker.bestBidQty⟩
          :: [⟨99, 3⟩, ⟨98, 3⟩]) ∧
    (∃ b1, update_bbo mainBookAfterTicker1 improvingTicker = some b1 ∧
      ∃ bids asks, extract b1 = [bids, asks] ∧
        asks = ⟨improvingTicker.bestAskPrice, improvingTicker.bestAskQty⟩
          :: [⟨102, 3⟩, ⟨103, 3⟩]) :=
  ⟨by decide,
    (pure_extension_on_improvement mainBookAfterTicker1 improvingTicker).1
      [⟨99, 3⟩, ⟨98, 3⟩] [⟨102, 3⟩, ⟨103, 3⟩] ⟨99, 3⟩ (by decide) (by decide) (by decide),
    (pure_extension_on_improvement mainBookAfterTicker1 improvingTicker).2.1
      [⟨99, 3⟩, ⟨98, 3⟩] [⟨102, 3⟩, ⟨103, 3⟩] ⟨102, 3⟩ (by decide) (by decide) (by decide)⟩

/-- C10. Empty-book behaviour: for every ticker `t`, `update_bbo(t)` on a freshly constructed
book, and on any book after `clear()`, returns a book whose bid side is exactly the one level
`(t.bestBidPrice, t.bestBidQty)` and whose ask side is exactly the one level
`(t.bestAskPrice, t.bestAskQty)`, and `is_empty()` is false on it. -/
theorem update_bbo_on_empty (b : BinanceBook P Q) (t : BookTicker P Q) :
    (∃ b1, update_bbo init t = some b1 ∧
      extract b1 = [[⟨t.bestBidPrice, t.bestBidQty⟩], [⟨t.bestAskPrice, t.bestAskQty⟩]] ∧
      is_empty b1 = false) ∧
    (∃ b1, update_bbo (clear b) t = some b1 ∧
      extract b1 = [[⟨t.bestBidPrice, t.bestBidQty⟩], [⟨t.bestAskPrice, t.bestAskQty⟩]] ∧
      is_empty b1 = false) :=
  ⟨⟨⟨[⟨t.bestBidPrice, t.bestBidQty⟩], [⟨t.bestAskPrice, t.bestAskQty⟩]⟩, rfl, rfl, rfl⟩,
   ⟨⟨[⟨t.bestBidPrice, t.bestBidQty⟩], [⟨t.bestAskPrice, t.bestAskQty⟩]⟩, rfl, rfl, rfl⟩⟩

end

/-- C11. Emptiness query and clear: for every book state `is_empty()` is true exactly when
both sequences returned by `extract()` are empty, so it is false when only one side is empty;
a freshly constructed book is empty; after `clear()` on any book `is_empty()` is true and
`extract()` returns two empty sequences. -/
theorem is_empty_and_clear (b : BinanceBook P Q) :
    (is_empty b = true ↔ extract b = [[], []]) ∧
    (∀ bids asks, extract b = [bids, asks] → (bids ≠ [] ∨ asks ≠ []) → is_empty b = false) ∧
    is_empty (init : BinanceBook P Q) = true ∧
    is_empty (clear b) = true ∧
    extract (clear b) = [[], []] := by
  refine ⟨?_, ?_, rfl, rfl, rfl⟩
  · simp [is_empty, extract, List.isEmpty_iff]
  · intro bids asks he hne
    simp only [extract, List.cons.injEq, and_true] at he
    obtain ⟨hb, ha⟩ := he
    subst hb; subst ha
    cases hbv : b.bidsInternal <;> cases hav : b.asksInternal <;>
      simp_all [is_empty]

/-- C17. The `replace` overloads agree: for every prior book and every pair of level
sequences, the container overload (clear, append every element, reverse) leaves the book in
exactly the state the `std::vector` overloads (assign, reverse) leave it in, namely internal
bids `reverse(bids)` and internal asks `reverse(asks)`, whatever the prior state was. -/
theorem replace_overloads_agree (b b0 : BinanceBook P Q) (bids asks : List (PriceQuantity P Q)) :
    replaceContainer b bids asks = replace b bids asks ∧
    (replace b bids asks).bidsInternal = bids.reverse ∧
    (replace b bids asks).asksInternal = asks.reverse ∧
    (replaceContainer b bids asks).bidsInternal = bids.reverse ∧
    (replaceContainer b bids asks).asksInternal = asks.reverse ∧
    replace b0 bids asks = replace b bids asks ∧
    replaceContainer b0 bids asks = replaceContainer b bids asks := by
  refine ⟨replaceContainer_eq_replace b bids asks, rfl, rfl, ?_, ?_, rfl, ?_⟩
  · rw [replaceContainer_eq_replace]; rfl
  · rw [replaceContainer_eq_replace]; rfl
  · rw [replaceContainer_eq_replace, replaceContainer_eq_replace]; rfl

/-! ## The length of a side under `update_bbo` -/

section

variable [LinearOrder P]

/-- The length of the bid vector after the bid half of `update_bbo`: at least one, at most one
more than before, and larger than before exactly in the append branch. -/
theorem updateBids_length (v : List (PriceQuantity P Q)) (p : P) (q : Q) :
    ∃ v1, updateBids v p q = some v1 ∧ 1 ≤ v1.length ∧ v1.length ≤ v.length + 1 ∧
      (v.length < v1.length ↔ (v = [] ∨ ∃ back, v.getLast? = some back ∧ back.price < p)) := by
  cases hl : v.getLast? with
  | none =>
    have hv : v = [] := List.getLast?_eq_none_iff.mp hl
    refine ⟨_, updateBids_append v p q (fun back hb => by rw [hl] at hb; cases hb), ?_, ?_, ?_⟩
    · simp
    · simp
    · simp [hv]
  | some back =>
    have hne : v ≠ [] := by rintro rfl; simp at hl
    by_cases hlt : back.price < p
    · refine ⟨_, updateBids_append v p q
        (fun back1 hb => by rw [hl] at hb; cases hb; exact hlt), ?_, ?_, ?_⟩
      · simp
      · simp
      · simp [hlt]
    · obtain ⟨r, hr, hins⟩ := insertBid_total v p q hne
      refine ⟨v.take r ++ [⟨p, q⟩], by simp only [updateBids, hl, hlt, if_false, hins],
        ?_, ?_, ?_⟩
      · simp
      · simp only [List.length_append, List.length_take, List.length_singleton]; omega
      · simp only [List.length_append, List.length_take, List.length_singleton]
        constructor
        · intro h; omega
        · rintro (h | ⟨back1, hb1, hlt1⟩)
          · exact absurd h hne
          · cases hb1; exact absurd hlt1 hlt

/-- The length of the ask vector after the ask half of `update_bbo`. -/
theorem updateAsks_length (v : List (PriceQuantity P Q)) (p : P) (q : Q) :
    ∃ v1, updateAsks v p q = some v1 ∧ 1 ≤ v1.length ∧ v1.length ≤ v.length + 1 ∧
      (v.length < v1.length ↔ (v = [] ∨ ∃ back, v.getLast? = some back ∧ back.price > p)) := by
  cases hl : v.getLast? with
  | none =>
    have hv : v = [] := List.getLast?_eq_none_iff.mp hl
    refine ⟨_, updateAsks_append v p q (fun back hb => by rw [hl] at hb; cases hb), ?_, ?_, ?_⟩
    · simp
    · simp
    · simp [hv]
  | some back =>
    have hne : v ≠ [] := by rintro rfl; simp at hl
    by_cases hlt : back.price > p
    · refine ⟨_, updateAsks_append v p q
        (fun back1 hb => by rw [hl] at hb; cases hb; exact hlt), ?_, ?_, ?_⟩
      · simp
      · simp
      · simp [hlt]
    · obtain ⟨r, hr, hins⟩ := insertAsk_total v p q hne
      refine ⟨v.take r ++ [⟨p, q⟩], by simp only [updateAsks, hl, hlt, if_false, hins],
        ?_, ?_, ?_⟩
      · simp
      · simp only [List.length_append, List.length_take, List.length_singleton]; omega
      · simp only [List.length_append, List.length_take, List.length_singleton]
        constructor
        · intro h; omega
        · rintro (h | ⟨back1, hb1, hlt1⟩)
          · exact absurd h hne
          · cases hb1; exact absurd hlt1 hlt

/-- Both sides after one `update_bbo`, with the bounds on their lengths. -/
theorem update_bbo_length (b : BinanceBook P Q) (t : BookTicker P Q) :
    ∃ b1, update_bbo b t = some b1 ∧
      1 ≤ b1.bidsInternal.length ∧ b1.bidsInternal.length ≤ b.bidsInternal.length + 1 ∧
      (b.bidsInternal.length < b1.bidsInternal.length ↔
        (b.bidsInternal = [] ∨
          ∃ back, b.bidsInternal.getLast? = some back ∧ back.price < t.bestBidPrice)) ∧
      1 ≤ b1.asksInternal.length ∧ b1.asksInternal.length ≤ b.asksInternal.length + 1 ∧
      (b.asksInternal.length < b1.asksInternal.length ↔
        (b.asksInternal = [] ∨
          ∃ back, b.asksInternal.getLast? = some back ∧ back.price > t.bestAskPrice)) := by
  obtain ⟨vb, hb, hb1, hb2, hb3⟩ := updateBids_length b.bidsInternal t.bestBidPrice t.bestBidQty
  obtain ⟨va, ha, ha1, ha2, ha3⟩ := updateAsks_length b.asksInternal t.bestAskPrice t.bestAskQty
  exact ⟨⟨vb, va⟩, by simp only [update_bbo, hb, ha], hb1, hb2, hb3, ha1, ha2, ha3⟩

/-- A run of `k` tickers returns, keeps the ordering invariant, and lengthens each side by at
most `k`. -/
theorem runTickers_length (ts : List (BookTicker P Q)) :
    ∀ b : BinanceBook P Q, Ordered b →
      ∃ b1, runTickers b ts = some b1 ∧ Ordered b1 ∧
        b1.bidsInternal.length ≤ b.bidsInternal.length + ts.length ∧
        b1.asksInternal.length ≤ b.asksInternal.length + ts.length := by
  induction ts with
  | nil => exact fun b h => ⟨b, rfl, h, by simp, by simp⟩
  | cons t ts ih =>
    intro b h
    obtain ⟨b1, hu, _, hb, _, _, ha, _⟩ := update_bbo_length b t
    obtain ⟨b1o, hu1, ho1⟩ := update_bbo_ordered b t h
    rw [hu] at hu1; cases hu1
    obtain ⟨b2, hr, ho2, hb2, ha2⟩ := ih b1 ho1
    refine ⟨b2, ?_, ho2, ?_, ?_⟩
    · simp only [runTickers, List.map_cons, run, step, hu]
      exact hr
    · simp only [List.length_cons]; omega
    · simp only [List.length_cons]; omega

/-- C16. Growth of a side by one update: for every book state and every ticker, `update_bbo`
returns, and afterwards each side has length at least 1 and at most its previous length plus 1;
the bid side is longer than before exactly when it was empty or the ticker's `bestBidPrice` is
strictly above the previous best bid price, and the ask side exactly when it was empty or
`bestAskPrice` is strictly below the previous best ask price.  In every other case the length
does not increase.  It may shrink: on the book of `main` the ticker `(99, 3, 102, 3)` takes both
sides from three levels to two. -/
theorem side_growth_by_one_update (b : BinanceBook P Q) (t : BookTicker P Q) :
    (∃ b1, update_bbo b t = some b1 ∧
      ∃ pb pa bids asks, extract b = [pb, pa] ∧ extract b1 = [bids, asks] ∧
        1 ≤ bids.length ∧ bids.length ≤ pb.length + 1 ∧
        (pb.length < bids.length ↔
          (pb = [] ∨ ∃ best, pb[0]? = some best ∧ best.price < t.bestBidPrice)) ∧
        1 ≤ asks.length ∧ asks.length ≤ pa.length + 1 ∧
        (pa.length < asks.length ↔
          (pa = [] ∨ ∃ best, pa[0]? = some best ∧ t.bestAskPrice < best.price))) ∧
    (∃ b1, update_bbo mainBook ticker1 = some b1 ∧
      mainBook.bidsInternal.length = 3 ∧ mainBook.asksInternal.length = 3 ∧
      b1.bidsInternal.length = 2 ∧ b1.asksInternal.length = 2) := by
  constructor
  · obtain ⟨b1, hu, hb1, hb2, hb3, ha1, ha2, ha3⟩ := update_bbo_length b t
    refine ⟨b1, hu, _, _, _, _, rfl, rfl, ?_, ?_, ?_, ?_, ?_, ?_⟩
    · simpa using hb1
    · simpa using hb2
    · simpa [← List.head?_eq_getElem?] using hb3
    · simpa using ha1
    · simpa using ha2
    · simpa [← List.head?_eq_getElem?] using ha3
  · exact ⟨⟨[⟨98, 3⟩, ⟨99, 3⟩], [⟨103, 3⟩, ⟨102, 3⟩]⟩, by decide, by decide, by decide,
      by decide, by decide⟩

/-- C12, as the code has it.  For a book with configured capacity `N` whose sides each hold at
most `N` levels and satisfy the ordering invariant, a run of `k` calls of `update_bbo` returns
a book that still satisfies the ordering invariant and whose sides each hold at most `N + k`
levels.  The capacity is not a bound: every ticker that strictly improves a side adds a level
to it. -/
theorem depth_after_tickers (N : Nat) (b : BinanceBook P Q) (ts : List (BookTicker P Q))
    (hb : b.bidsInternal.length ≤ N) (ha : b.asksInternal.length ≤ N) (ho : Ordered b) :
    ∃ b1, runTickers b ts = some b1 ∧ Ordered b1 ∧
      ∃ bids asks, extract b1 = [bids, asks] ∧
        bids.length ≤ N + ts.length ∧ asks.length ≤ N + ts.length := by
  obtain ⟨b1, hr, ho1, hb1, ha1⟩ := runTickers_length ts b ho
  exact ⟨b1, hr, ho1, _, _, rfl, by simp only [List.length_reverse]; omega,
    by simp only [List.length_reverse]; omega⟩

theorem depth_after_tickers_witness :
    (mainBook.bidsInternal.length ≤ 3 ∧ mainBook.asksInternal.length ≤ 3 ∧ Ordered mainBook) ∧
    ∃ b1, runTickers mainBook [ticker1, ticker2] = some b1 ∧ Ordered b1 ∧
      ∃ bids asks, extract b1 = [bids, asks] ∧
        bids.length ≤ 3 + [ticker1, ticker2].length ∧
        asks.length ≤ 3 + [ticker1, ticker2].length :=
  ⟨by decide, depth_after_tickers 3 mainBook [ticker1, ticker2] (by decide) (by decide)
    (by decide)⟩

/-- C12 as stated fails: the book of `main` has capacity-3 sides (three levels each, ordered),
and the single ticker `(105, 5, 120, 5)` leaves four bid levels. -/
theorem depth_bound_counterexample :
    mainBook.bidsInternal.length ≤ 3 ∧ mainBook.asksInternal.length ≤ 3 ∧ Ordered mainBook ∧
    ∃ b1, runTickers mainBook [ticker2] = some b1 ∧ b1.bidsInternal.length = 4 ∧
      ¬ b1.bidsInternal.length ≤ 3 := by
  refine ⟨by decide, by decide, by decide,
    ⟨[⟨98, 3⟩, ⟨99, 2⟩, ⟨100, 1⟩, ⟨105, 5⟩], [⟨120, 5⟩]⟩, by decide, by decide, by decide⟩

end

/-! ## The search against the linear scan -/

/-- The search started as `insertBid` and `insertAsk` start it, on a non-empty monotone vector
whose last element is not `goRight`, returns the leftmost index whose element is not
`goRight`. -/
theorem searchLoop_leftmost {α : Type} (goLeft goRight : α → Bool) (v : List α)
    (hex : ∀ e, goLeft e = true → goRight e = false)
    (hmono : ∀ (i j : Nat) (ei ej : α), v[i]? = some ei → v[j]? = some ej → i < j →
      goLeft ej = false → goRight ei = true)
    (hne : v ≠ [])
    (hlast : ∀ e, v.getLast? = some e → goRight e = false) :
    ∃ r : Nat, r < v.length ∧
      searchLoop goLeft goRight v v.length 0 ((v.length : Int) - 1) = some (r : Int) ∧
      (∀ (i : Nat) (e : α), v[i]? = some e → i < r → goRight e = true) ∧
      (∀ e, v[r]? = some e → goRight e = false) ∧
      v.findIdx (fun e => !goRight e) = r := by
  have hpos : 0 < v.length := List.length_pos.mpr hne
  obtain ⟨r, hr, hr0, hr1⟩ := searchLoop_bounds goLeft goRight v v.length 0
    ((v.length : Int) - 1) (le_refl _) (by omega) (by omega) (by omega)
  have hidx : ((v.length : Int) - 1).toNat = v.length - 1 := by omega
  obtain ⟨hA, hB⟩ := searchLoop_spec goLeft goRight v hex hmono v.length 0
    ((v.length : Int) - 1) r (le_refl _) (by omega)
    (fun i e _ hi => by omega)
    (fun e he => hlast e (by rw [List.getLast?_eq_getElem?, ← hidx]; exact he)) hr
  have hrn : (r.toNat : Int) = r := by omega
  have hlt : r.toNat < v.length := by omega
  refine ⟨r.toNat, hlt, by rw [hrn]; exact hr, fun i e he hi => hA i e he (by omega), hB, ?_⟩
  rw [List.findIdx_eq hlt]
  refine ⟨?_, fun j hj => ?_⟩
  · simp [hB _ (List.getElem?_eq_getElem hlt)]
  · simp [hA j _ (List.getElem?_eq_getElem (lt_trans hj hlt)) (by omega)]

section

variable [LinearOrder P]

/-- C13. The binary search agrees with a linear scan: on every non-empty strictly ascending
bid vector whose last price is at least `p`, the loop of `insertBid` returns the index that the
linear scan for the leftmost price `≥ p` returns; every element before that index is priced
below `p` and the element at it is priced at least `p`.  On every non-empty strictly descending
ask vector whose last price is at most `p`, the loop of `insertAsk` returns the leftmost index
whose price is `≤ p`.  This includes the vectors on which the range ends on a single candidate
that is equal to `p` or strictly past it. -/
theorem binary_search_agrees_with_linear_scan (v : List (PriceQuantity P Q)) (p : P)
    (hne : v ≠ []) :
    (StrictAsc v → (∀ e, v.getLast? = some e → e.price ≥ p) →
      insertBidLoop v p v.length 0 ((v.length : Int) - 1) = some (linearScanBid v p : Int) ∧
      linearScanBid v p < v.length ∧
      (∀ (i : Nat) (e : PriceQuantity P Q), v[i]? = some e → i < linearScanBid v p →
        e.price < p) ∧
      (∀ e, v[linearScanBid v p]? = some e → e.price ≥ p)) ∧
    (StrictDesc v → (∀ e, v.getLast? = some e → e.price ≤ p) →
      insertAskLoop v p v.length 0 ((v.length : Int) - 1) = some (linearScanAsk v p : Int) ∧
      linearScanAsk v p < v.length ∧
      (∀ (i : Nat) (e : PriceQuantity P Q), v[i]? = some e → i < linearScanAsk v p →
        e.price > p) ∧
      (∀ e, v[linearScanAsk v p]? = some e → e.price ≤ p)) := by
  constructor
  · intro hs hlast
    obtain ⟨r, hr, hloop, hA, hB, hfind⟩ := searchLoop_leftmost
      (fun e : PriceQuantity P Q => decide (e.price > p)) (fun e => decide (e.price < p)) v
      (fun e he => by
        have h : p < e.price := by simpa using he
        simpa using le_of_lt h)
      (fun i j ei ej hi hj hij hL => by
        have h1 : ei.price < ej.price := pairwise_getElem? hs hi hj hij
        have h2 : ej.price ≤ p := by simpa using hL
        simpa using lt_of_lt_of_le h1 h2)
      hne (fun e he => by simpa using hlast e he)
    have hscan : linearScanBid v p = r := by
      rw [← hfind]
      unfold linearScanBid
      congr 1
      funext e
      by_cases h : e.price < p
      · simp [h, not_le.mpr h]
      · simp [h, not_lt.mp h]
    rw [hscan, insertBidLoop_eq_searchLoop]
    exact ⟨hloop, hr, fun i e he hi => by simpa using hA i e he hi,
      fun e he => by simpa using hB e he⟩
  · intro hs hlast
    obtain ⟨r, hr, hloop, hA, hB, hfind⟩ := searchLoop_leftmost
      (fun e : PriceQuantity P Q => decide (e.price < p)) (fun e => decide (e.price > p)) v
      (fun e he => by
        have h : e.price < p := by simpa using he
        simpa using le_of_lt h)
      (fun i j ei ej hi hj hij hL => by
        have h1 : ei.price > ej.price := pairwise_getElem? hs hi hj hij
        have h2 : p ≤ ej.price := by simpa using hL
        simpa using lt_of_le_of_lt h2 h1)
      hne (fun e he => by simpa using hlast e he)
    have hscan : linearScanAsk v p = r := by
      rw [← hfind]
      unfold linearScanAsk
      congr 1
      funext e
      by_cases h : p < e.price
      · simp [h, not_le.mpr h]
      · simp [h, not_lt.mp h]
    rw [hscan, insertAskLoop_eq_searchLoop]
    exact ⟨hloop, hr, fun i e he hi => by simpa using hA i e he hi,
      fun e he => by simpa using hB e he⟩

theorem binary_search_agrees_with_linear_scan_witness :
    (mainBook.bidsInternal ≠ [] ∧ StrictAsc mainBook.bidsInternal ∧
      (∀ e, mainBook.bidsInternal.getLast? = some e → e.price ≥ 99)) ∧
    (insertBidLoop mainBook.bidsInternal 99 mainBook.bidsInternal.length 0
        ((mainBook.bidsInternal.length : Int) - 1)
        = some (linearScanBid mainBook.bidsInternal 99 : Int) ∧
      linearScanBid mainBook.bidsInternal 99 < mainBook.bidsInternal.length ∧
      (∀ (i : Nat) (e : PriceQuantity Int Int), mainBook.bidsInternal[i]? = some e →
        i < linearScanBid mainBook.bidsInternal 99 → e.price < 99) ∧
      (∀ e, mainBook.bidsInternal[linearScanBid mainBook.bidsInternal 99]? = some e →
        e.price ≥ 99)) ∧
    (StrictDesc mainBook.asksInternal ∧
      (∀ e, mainBook.asksInternal.getLast? = some e → e.price ≤ 102)) ∧
    (insertAskLoop mainBook.asksInternal 102 mainBook.asksInternal.length 0
        ((mainBook.asksInternal.length : Int) - 1)
        = some (linearScanAsk mainBook.asksInternal 102 : Int) ∧
      linearScanAsk mainBook.asksInternal 102 < mainBook.asksInternal.length ∧
      (∀ (i : Nat) (e : PriceQuantity Int Int), mainBook.asksInternal[i]? = some e →
        i < linearScanAsk mainBook.asksInternal 102 → e.price > 102) ∧
      (∀ e, mainBook.asksInternal[linearScanAsk mainBook.asksInternal 102]? = some e →
        e.price ≤ 102)) :=
  have hb : ∀ e, mainBook.bidsInternal.getLast? = some e → e.price ≥ 99 := fun e he => by
    have h : some (⟨100, 1⟩ : PriceQuantity Int Int) = some e := he
    cases h; decide
  have ha : ∀ e, mainBook.asksInternal.getLast? = some e → e.price ≤ 102 := fun e he => by
    have h : some (⟨101, 1⟩ : PriceQuantity Int Int) = some e := he
    cases h; decide
  ⟨⟨by decide, by decide, hb⟩,
    (binary_search_agrees_with_linear_scan mainBook.bidsInternal 99 (by decide)).1
      (by decide) hb,
    ⟨by decide, ha⟩,
    (binary_search_agrees_with_linear_scan mainBook.asksInternal 102 (by decide)).2
      (by decide) ha⟩

/-- C15. The binary search is safe and terminates.  `update_bbo` calls `insertBid` or
`insertAsk` only on a non-empty side.  On every non-empty side, of any content, and for every
price, the loop returns within its fuel without an out-of-range read: the final `lo` satisfies
`0 ≤ lo ≤ size - 1`, so the erase of `[lo, end)` is valid and removes at least one element.  In
every iteration (`0 ≤ lo < hi ≤ size - 1`) the index `mid` that is read satisfies
`lo ≤ mid < hi`, hence `0 ≤ mid ≤ size - 1`, and both `hi = mid` and `lo = mid + 1` make
`hi - lo` strictly smaller; from every such range the loops return within `hi - lo`
iterations. -/
theorem binary_search_safe (v : List (PriceQuantity P Q)) (p : P) (q : Q) :
    (updateBids v p q
        = if callsInsertBid v p = true then insertBid v p q else some (v ++ [⟨p, q⟩])) ∧
    (callsInsertBid v p = true → v ≠ []) ∧
    (updateAsks v p q
        = if callsInsertAsk v p = true then insertAsk v p q else some (v ++ [⟨p, q⟩])) ∧
    (callsInsertAsk v p = true → v ≠ []) ∧
    (v ≠ [] →
      (∃ lo, insertBidLoop v p v.length 0 ((v.length : Int) - 1) = some lo ∧
        0 ≤ lo ∧ lo ≤ (v.length : Int) - 1 ∧
        eraseFrom v lo = some (v.take lo.toNat) ∧ (v.take lo.toNat).length < v.length ∧
        insertBid v p q = some (v.take lo.toNat ++ [⟨p, q⟩])) ∧
      (∃ lo, insertAskLoop v p v.length 0 ((v.length : Int) - 1) = some lo ∧
        0 ≤ lo ∧ lo ≤ (v.length : Int) - 1 ∧
        eraseFrom v lo = some (v.take lo.toNat) ∧ (v.take lo.toNat).length < v.length ∧
        insertAsk v p q = some (v.take lo.toNat ++ [⟨p, q⟩]))) ∧
    (∀ lo hi : Int, 0 ≤ lo → lo < hi → hi ≤ (v.length : Int) - 1 →
      lo ≤ lo + (hi - lo).tdiv 2 ∧ lo + (hi - lo).tdiv 2 < hi ∧
      0 ≤ lo + (hi - lo).tdiv 2 ∧ lo + (hi - lo).tdiv 2 ≤ (v.length : Int) - 1 ∧
      (∃ e, readAt v (lo + (hi - lo).tdiv 2) = some e) ∧
      (lo + (hi - lo).tdiv 2) - lo < hi - lo ∧
      hi - (lo + (hi - lo).tdiv 2 + 1) < hi - lo) ∧
    (∀ (fuel : Nat) (lo hi : Int), 0 ≤ lo → lo ≤ hi → hi ≤ (v.length : Int) - 1 →
      hi - lo ≤ (fuel : Int) →
      (∃ r, insertBidLoop v p fuel lo hi = some r ∧ lo ≤ r ∧ r ≤ hi) ∧
      (∃ r, insertAskLoop v p fuel lo hi = some r ∧ lo ≤ r ∧ r ≤ hi)) := by
  refine ⟨?_, ?_, ?_, ?_, ?_, ?_, ?_⟩
  · unfold updateBids callsInsertBid
    cases v.getLast? with
    | none => simp
    | some back => by_cases h : back.price < p <;> simp [h]
  · unfold callsInsertBid
    intro h hv
    subst hv
    simp at h
  · unfold updateAsks callsInsertAsk
    cases v.getLast? with
    | none => simp
    | some back => by_cases h : back.price > p <;> simp [h]
  · unfold callsInsertAsk
    intro h hv
    subst hv
    simp at h
  · intro hne
    have hpos : 0 < v.length := List.length_pos.mpr hne
    constructor
    · obtain ⟨r, hr, hr0, hr1⟩ := searchLoop_bounds
        (fun e : PriceQuantity P Q => decide (e.price > p)) (fun e => decide (e.price < p))
        v v.length 0 ((v.length : Int) - 1) (le_refl _) (by omega) (by omega) (by omega)
      have he := eraseFrom_of_bounds v hr0 (show r ≤ (v.length : Int) by omega)
      refine ⟨r, by rw [insertBidLoop_eq_searchLoop]; exact hr, hr0, hr1, he, ?_, ?_⟩
      · simp only [List.length_take]; omega
      · simp only [insertBid, insertBidLoop_eq_searchLoop, hr, he]
    · obtain ⟨r, hr, hr0, hr1⟩ := searchLoop_bounds
        (fun e : PriceQuantity P Q => decide (e.price < p)) (fun e => decide (e.price > p))
        v v.length 0 ((v.length : Int) - 1) (le_refl _) (by omega) (by omega) (by omega)
      have he := eraseFrom_of_bounds v hr0 (show r ≤ (v.length : Int) by omega)
      refine ⟨r, by rw [insertAskLoop_eq_searchLoop]; exact hr, hr0, hr1, he, ?_, ?_⟩
      · simp only [List.length_take]; omega
      · simp only [insertAsk, insertAskLoop_eq_searchLoop, hr, he]
  · intro lo hi h0 hlt hhi
    obtain ⟨hm1, hm2⟩ := mid_bounds hlt
    exact ⟨hm1, hm2, by omega, by omega, readAt_of_lt (by omega) (by omega), by omega,
      by omega⟩
  · intro fuel lo hi h0 hle hhi hf
    constructor
    · rw [insertBidLoop_eq_searchLoop]
      exact searchLoop_bounds _ _ v fuel lo hi h0 hle (by omega) hf
    · rw [insertAskLoop_eq_searchLoop]
      exact searchLoop_bounds _ _ v fuel lo hi h0 hle (by omega) hf

theorem binary_search_safe_witness :
    (callsInsertBid mainBook.bidsInternal 99 = true ∧ mainBook.bidsInternal ≠ []) ∧
    (mainBook.bidsInternal ≠ []) ∧
    (∃ lo, insertBidLoop mainBook.bidsInternal 99 mainBook.bidsInternal.length 0
          ((mainBook.bidsInternal.length : Int) - 1) = some lo ∧
        0 ≤ lo ∧ lo ≤ (mainBook.bidsInternal.length : Int) - 1 ∧
        eraseFrom mainBook.bidsInternal lo = some (mainBook.bidsInternal.take lo.toNat) ∧
        (mainBook.bidsInternal.take lo.toNat).length < mainBook.bidsInternal.length ∧
        insertBid mainBook.bidsInternal 99 3
          = some (mainBook.bidsInternal.take lo.toNat ++ [⟨99, 3⟩])) ∧
    (∃ lo, insertAskLoop mainBook.bidsInternal 99 mainBook.bidsInternal.length 0
          ((mainBook.bidsInternal.length : Int) - 1) = some lo ∧
        0 ≤ lo ∧ lo ≤ (mainBook.bidsInternal.length : Int) - 1 ∧
        eraseFrom mainBook.bidsInternal lo = some (mainBook.bidsInternal.take lo.toNat) ∧
        (mainBook.bidsInternal.take lo.toNat).length < mainBook.bidsInternal.length ∧
        insertAsk mainBook.bidsInternal 99 3
          = some (mainBook.bidsInternal.take lo.toNat ++ [⟨99, 3⟩])) ∧
    ((0 : Int) ≤ 0 ∧ (0 : Int) < 2 ∧ (2 : Int) ≤ (mainBook.bidsInternal.length : Int) - 1) ∧
    (∃ e, readAt mainBook.bidsInternal (0 + ((2 : Int) - 0).tdiv 2) = some e) ∧
    ((2 : Int) - 0 ≤ ((3 : Nat) : Int)) ∧
    (∃ r, insertBidLoop mainBook.bidsInternal 99 3 0 2 = some r ∧ 0 ≤ r ∧ r ≤ 2) :=
  ⟨⟨by decide,
      (binary_search_safe mainBook.bidsInternal 99 3).2.1 (by decide)⟩,
    by decide,
    ((binary_search_safe mainBook.bidsInternal 99 3).2.2.2.2.1 (by decide)).1,
    ((binary_search_safe mainBook.bidsInternal 99 3).2.2.2.2.1 (by decide)).2,
    by decide,
    ((binary_search_safe mainBook.bidsInternal 99 3).2.2.2.2.2.1 0 2 (by decide) (by decide)
      (by decide)).2.2.2.2.1,
    by decide,
    ((binary_search_safe mainBook.bidsInternal 99 3).2.2.2.2.2.2 3 0 2 (by decide) (by decide)
      (by decide) (by decide)).1⟩

end

/-! ## The diagnostic table -/

theorem foldl_append_eq_join (l : List String) (acc : String) :
    l.foldl (fun r s => r ++ s) acc = acc ++ String.join l := by
  induction l generalizing acc with
  | nil => simp [String.join]
  | cons a l ih =>
    simp only [List.foldl_cons, String.join]
    rw [ih, ih ("" ++ a)]
    simp [String.append_assoc]

theorem join_cons (a : String) (l : List String) :
    String.join (a :: l) = a ++ String.join l := by
  simp only [String.join, List.foldl_cons]
  rw [foldl_append_eq_join]
  simp [String.join]

/-- The rows from level `first` on: the row of the two heads, then the rows of the tails from
level `first + 1` on. -/
theorem tableRowsFrom_step (showP : P → String) (showQ : Q → String) (first : Int)
    (bids asks : List (PriceQuantity P Q)) (h : bids ≠ [] ∨ asks ≠ []) :
    tableRowsFrom showP showQ first bids asks
      = tableRow showP showQ first bids.head? asks.head?
          :: tableRowsFrom showP showQ (first + 1) bids.tail asks.tail := by
  have hmax : max bids.length asks.length
      = max bids.tail.length asks.tail.length + 1 := by
    cases bids <;> cases asks <;> simp_all
    omega
  unfold tableRowsFrom
  rw [hmax, List.range_succ_eq_map, List.map_cons, List.map_map]
  congr 1
  · simp [List.head?_eq_getElem?]
  · apply List.map_congr_left
    intro i _
    have hb : bids[i + 1]? = bids.tail[i]? := by cases bids <;> simp
    have ha : asks[i + 1]? = asks.tail[i]? := by cases asks <;> simp
    simp only [Function.comp, Nat.succ_eq_add_one, hb, ha]
    congr 1
    push_cast
    ring

theorem tableRowsFrom_nil (showP : P → String) (showQ : Q → String) (first : Int) :
    tableRowsFrom showP showQ first ([] : List (PriceQuantity P Q)) [] = [] := by
  simp [tableRowsFrom]

theorem toStringAsks_eq (showP : P → String) (showQ : Q → String)
    (asks : List (PriceQuantity P Q)) :
    ∀ (result : String) (level : Int),
      toStringAsks showP showQ result level asks
        = result ++ String.join (tableRowsFrom showP showQ level [] asks) := by
  induction asks with
  | nil => intro result level; simp [toStringAsks, tableRowsFrom_nil, String.join]
  | cons a asks ih =>
    intro result level
    rw [tableRowsFrom_step showP showQ level [] (a :: asks) (Or.inr (by simp)), join_cons]
    simp only [toStringAsks, ih, List.tail_cons, List.tail_nil, List.head?_nil,
      List.head?_cons, tableRow]
    apply String.ext
    simp [String.data_append]

theorem toStringBids_eq (showP : P → String) (showQ : Q → String)
    (bids : List (PriceQuantity P Q)) :
    ∀ (result : String) (level : Int),
      toStringBids showP showQ result level bids
        = result ++ String.join (tableRowsFrom showP showQ level bids []) := by
  induction bids with
  | nil => intro result level; simp [toStringBids, tableRowsFrom_nil, String.join]
  | cons b bids ih =>
    intro result level
    rw [tableRowsFrom_step showP showQ level (b :: bids) [] (Or.inl (by simp)), join_cons]
    simp only [toStringBids, ih, List.tail_cons, List.tail_nil, List.head?_nil,
      List.head?_cons, tableRow]
    apply String.ext
    simp [String.data_append]

theorem toStringRest_toStringBoth_eq (showP : P → String) (showQ : Q → String)
    (bids : List (PriceQuantity P Q)) :
    ∀ (asks : List (PriceQuantity P Q)) (result : String) (level : Int),
      toStringRest showP showQ (toStringBoth showP showQ result level bids asks)
        = result ++ String.join (tableRowsFrom showP showQ level bids asks) := by
  induction bids with
  | nil =>
    intro asks result level
    simp only [toStringBoth, toStringRest, List.isEmpty_nil, if_true]
    exact toStringAsks_eq showP showQ asks result level
  | cons b bids ih =>
    intro asks result level
    cases asks with
    | nil =>
      simp only [toStringBoth, toStringRest, List.isEmpty_cons, Bool.false_eq_true, if_false]
      exact toStringBids_eq showP showQ (b :: bids) result level
    | cons a asks =>
      rw [tableRowsFrom_step showP showQ level (b :: bids) (a :: asks) (Or.inl (by simp)),
        join_cons]
      simp only [toStringBoth, ih, List.tail_cons, List.head?_cons, tableRow]
      apply String.ext
      simp [String.data_append]

/-- C14. Diagnostic table shape: for every book state `to_string()` is the concatenation of
exactly `max(number of bid levels, number of ask levels)` rows, each ending in a newline (the
empty string for an empty book).  Row `i`, counted from 1, carries the level `i`, the quantity
and price of the `i`-th best bid left of the bar and the price and quantity of the `i`-th best
ask right of it, and `----` in both fields of a side that has fewer than `i` levels.  Numbers
are rendered by `showP` and `showQ`, which stand for `std::to_string`. -/
theorem to_string_table_shape (showP : P → String) (showQ : Q → String) (b : BinanceBook P Q) :
    (∃ bids asks, extract b = [bids, asks] ∧
      to_string showP showQ b = String.join (tableRows showP showQ bids asks) ∧
      (tableRows showP showQ bids asks).length = max bids.length asks.length ∧
      (∀ i : Nat, i < max bids.length asks.length →
        (tableRows showP showQ bids asks)[i]?
          = some (tableRow showP showQ ((i : Int) + 1) bids[i]? asks[i]?)) ∧
      (∀ row ∈ tableRows showP showQ bids asks, ∃ body : String, row = body ++ "\n")) ∧
    (is_empty b = true → to_string showP showQ b = "") ∧
    (∀ (level : Int) (bid ask : PriceQuantity P Q),
      tableRow showP showQ level (some bid) (some ask)
        = "[" ++ toString level ++ "] [" ++ showQ bid.quantity ++ "] " ++ showP bid.price
            ++ " | " ++ showP ask.price ++ " [" ++ showQ ask.quantity ++ "]" ++ "\n" ∧
      tableRow showP showQ level none (some ask)
        = "[" ++ toString level ++ "] [----] ---- | "
            ++ showP ask.price ++ " [" ++ showQ ask.quantity ++ "]" ++ "\n" ∧
      tableRow showP showQ level (some bid) none
        = "[" ++ toString level ++ "] [" ++ showQ bid.quantity ++ "] " ++ showP bid.price
            ++ " | ---- [----]" ++ "\n") := by
  refine ⟨⟨b.bidsInternal.reverse, b.asksInternal.reverse, rfl, ?_, ?_, ?_, ?_⟩, ?_, ?_⟩
  · unfold to_string tableRows
    rw [toStringRest_toStringBoth_eq]
    simp
  · simp [tableRows, tableRowsFrom]
  · intro i hi
    simp only [tableRows, tableRowsFrom, List.getElem?_map]
    rw [List.getElem?_range hi]
    simp only [Option.map_some']
    congr 2
    ring
  · intro row hrow
    simp only [tableRows, tableRowsFrom, List.mem_map] at hrow
    obtain ⟨i, _, rfl⟩ := hrow
    exact ⟨_, rfl⟩
  · intro he
    simp only [is_empty, Bool.and_eq_true, List.isEmpty_iff] at he
    simp [to_string, he.1, he.2, toStringBoth, toStringRest, toStringAsks]
  · intro level bid ask
    refine ⟨rfl, ?_, ?_⟩
    · apply String.ext
      simp [tableRow, String.data_append]
    · apply String.ext
      simp [tableRow, String.data_append]

end BinanceBook
